import Mathlib

/-!
Verification development for a declarative bit-level codec framework
(the `bitfield` module: field-descriptor algebra, the two mirror
traversals between bit streams and record values, length inference,
dynamic dispatch, literal validation, and the record base class).

The Python source is embedded shallowly: Python values flowing through
the codec become the inductive type `Value`, field descriptors become
`BFType`, record classes become `Schema` values living in an
environment `Env` (class objects are referred to by name), and the two
interpreter traversals become fuel-indexed functions returning
`Except Err`.  The `Bits`/`BitStream` buffer primitives are imported by
the source from a module that is not part of the source tree; those are
modelled from the specification and marked as such.
-/

namespace Benlink

/-- Kind of a raised Python exception (`ValueError`, `TypeError`, the
short-read failure of the bit-stream, or exhaustion of the modelling
fuel, which has no Python counterpart). -/
inductive ErrKind where
  | valueError
  | typeError
  | shortBuffer
  | fuelOut
  deriving DecidableEq, Repr

/-- A raised exception: its kind together with its message.  Re-raising
with `type(e)(new_message)` preserves the kind and replaces the
message. -/
structure Err where
  kind : ErrKind
  msg : String
  deriving DecidableEq, Repr

/-- A Python runtime value as it flows through the codec: a `Bits`
buffer, an `int`, a `bool`, a `str`, a `bytes`, a `list`, `None`, or a
`Bitfield` record instance.  A record instance carries the name of its
class, its field attributes in declaration order, and its
`bitfield_context` attribute. -/
inductive Value where
  | vBits (b : List Bool)
  | vInt (i : Int)
  | vBool (b : Bool)
  | vStr (s : String)
  | vBytes (bs : List Nat)
  | vList (xs : List Value)
  | vNone
  | vRecord (cls : String) (attrs : List (String × Value)) (ctx : Value)

/-- The attribute view handed to dynamic dispatchers: decoded fields by
name (the `AttrProxy`), or the full instance on the encode side. -/
abbrev AttrList := List (String × Value)

mutual
/-- The field-descriptor algebra (`BFType` in the source): one variant
per kind of field.  Mappers and dynamic dispatchers are Python
callables and are embedded as Lean functions; descriptor defaults are
`Option Value` (`NOT_PROVIDED` is `none`).  A nested-record descriptor
(`BFBitfield`) refers to its record class by name. -/
inductive BFType where
  | bfBits (n : Nat) (default : Option Value)
  | bfList (inner : BFType) (n : Nat) (default : Option Value)
  | bfMap (fwd : Value → Except Err Value) (bck : Value → Except Err Value)
      (inner : BFType) (default : Option Value)
  | bfDynSelf (fn : AttrList → Disguised) (default : Option Value)
  | bfDynSelfN (fn : AttrList → Nat → Disguised) (default : Option Value)
  | bfLit (inner : BFType) (default : Value)
  | bfNone (default : Option Value)
  | bfBitfield (cls : String) (n : Nat) (default : Option Value)

/-- What a schema builder or a dynamic dispatcher may return before
normalisation (`BFTypeDisguised`): a raw descriptor, a record class
(by name), the `bool` class, a `bytes` or `str` literal, `None`, or
something that is not a field type at all. -/
inductive Disguised where
  | dTy (F : BFType)
  | dCls (cls : String)
  | dBoolCls
  | dBytes (bs : List Nat)
  | dStr (s : String)
  | dNone
  | dOther
end

/-- A record schema: class name, the ordered `_fields` map, the
`_reorder` permutation, and the names of the proper ancestor record
classes (for `isinstance` checks). -/
structure Schema where
  name : String
  fields : List (String × BFType)
  reorder : List Nat
  ancestors : List String

/-- The registry of record classes, keyed by class name. -/
abbrev Env := List Schema

/-- Look a record class up by name. -/
def lookupSchema (env : Env) (cls : String) : Option Schema :=
  env.find? (fun s => s.name == cls)

/-- The `default` attribute common to every descriptor variant; a
`BFLit` inherently carries its literal value as its default. -/
def BFType.default : BFType → Option Value
  | .bfBits _ d => d
  | .bfList _ _ d => d
  | .bfMap _ _ _ d => d
  | .bfDynSelf _ d => d
  | .bfDynSelfN _ d => d
  | .bfLit _ d => some d
  | .bfNone d => d
  | .bfBitfield _ _ d => d

/-- `bftype_length`: static bit length of a descriptor, `none` when it
depends on runtime information (any `DynSelf*`). -/
def bftype_length : BFType → Option Nat
  | .bfBits n _ => some n
  | .bfBitfield _ n _ => some n
  | .bfList inner n _ =>
      match bftype_length inner with
      | none => none
      | some itemLen => some (n * itemLen)
  | .bfMap _ _ inner _ => bftype_length inner
  | .bfLit inner _ => bftype_length inner
  | .bfNone _ => some 0
  | .bfDynSelf _ _ => none
  | .bfDynSelfN _ _ => none

/-- `bftype_has_children_with_default`: does some strictly inner
descriptor carry a provided default? -/
def bftype_has_children_with_default : BFType → Bool
  | .bfBits _ _ => false
  | .bfBitfield _ _ _ => false
  | .bfNone _ => false
  | .bfDynSelf _ _ => false
  | .bfDynSelfN _ _ => false
  | .bfList inner _ _ =>
      inner.default.isSome || bftype_has_children_with_default inner
  | .bfMap _ _ inner _ =>
      inner.default.isSome || bftype_has_children_with_default inner
  | .bfLit inner _ =>
      inner.default.isSome || bftype_has_children_with_default inner

/-- The per-field check performed by `Bitfield.__init_subclass__` on
each distilled field descriptor. -/
def field_definition_check (F : BFType) : Except Err Unit :=
  if bftype_has_children_with_default F then
    .error ⟨.valueError,
      "inner field definitions cannot have defaults set (except literal fields)"⟩
  else
    .ok ()

/-- `Bitfield.length`: sum of the static field lengths, `none` as soon
as one field is dynamic. -/
def schema_length (s : Schema) : Option Nat :=
  go s.fields 0
where
  go : List (String × BFType) → Nat → Option Nat
    | [], acc => some acc
    | (_, F) :: rest, acc =>
        match bftype_length F with
        | none => none
        | some l => go rest (acc + l)

/-- Ancestor class names of a record class, per the environment. -/
def ancestorsOf (env : Env) (cls : String) : List String :=
  match lookupSchema env cls with
  | some s => s.ancestors
  | none => []

/-- `isinstance(value, cls)` for record instances: the instance's class
is `cls` itself or inherits from it. -/
def isInstanceOf (env : Env) (vcls cls : String) : Bool :=
  vcls == cls || (ancestorsOf env vcls).contains cls

/-- Structural equality of Python values as the codec observes it
(`==`).  Record instances compare via `Bitfield.__eq__`: an
`isinstance` check against the left operand's class followed by a
per-field comparison over the left operand's declared fields; the
`bitfield_context` attribute does not participate.  `True == 1` holds
as in Python.  The `Nat` argument is recursion fuel, an artifact of the
model; any concrete comparison stabilises once the fuel exceeds the
value depth.  A failed attribute lookup is rendered as inequality. -/
def valueEqF (env : Env) : Nat → Value → Value → Bool
  | 0, _, _ => false
  | f + 1, v, w =>
    match v, w with
    | .vInt i, .vInt j => i == j
    | .vBool a, .vBool b => a == b
    | .vBool a, .vInt j => (if a then (1 : Int) else 0) == j
    | .vInt i, .vBool b => i == (if b then (1 : Int) else 0)
    | .vStr s, .vStr t => s == t
    | .vBytes p, .vBytes q => p == q
    | .vBits p, .vBits q => p == q
    | .vNone, .vNone => true
    | .vList xs, .vList ys =>
        xs.length == ys.length &&
          (xs.zip ys).all (fun p => valueEqF env f p.1 p.2)
    | .vRecord cn a _, .vRecord cn2 b _ =>
        isInstanceOf env cn2 cn &&
          (match lookupSchema env cn with
           | none => false
           | some sch =>
               sch.fields.all (fun p =>
                 match a.lookup p.1, b.lookup p.1 with
                 | some va, some vb => valueEqF env f va vb
                 | _, _ => false))
    | _, _ => false

/-! ### Bit buffers and streams

The source imports `Bits`, `BitStream` and `AttrProxy` from a `bits`
module that is not part of the source tree; the definitions below are
modelled from the specification of that layer. -/

/-- Modelled from the spec: `B.to_int()` reads the buffer as an
unsigned big-endian integer (the first bit is the most significant). -/
def bits_to_int (b : List Bool) : Int :=
  b.foldl (fun acc bit => 2 * acc + (if bit then 1 else 0)) 0

/-- Modelled from the spec: `Bits.from_int(v, n)` produces exactly `n`
bits, most significant first, and fails if `v < 0` or `v ≥ 2^n`. -/
def bits_from_int (v : Int) (n : Nat) : Except Err (List Bool) :=
  if v < 0 ∨ (2 : Int) ^ n ≤ v then
    .error ⟨.valueError, "value out of range"⟩
  else
    .ok ((List.range n).map (fun i => v.toNat / 2 ^ (n - 1 - i) % 2 == 1))

/-- Modelled from the spec: `B.to_bytes()` is valid only when the
length is a multiple of 8; bit 0 becomes the most significant bit of
byte 0. -/
def bits_to_bytes (b : List Bool) : Except Err (List Nat) :=
  if b.length % 8 = 0 then
    .ok ((List.range (b.length / 8)).map (fun i =>
      ((b.drop (8 * i)).take 8).foldl
        (fun acc bit => 2 * acc + (if bit then 1 else 0)) 0))
  else
    .error ⟨.valueError, "result is not byte aligned"⟩

namespace Bits

/-- Modelled from the spec: `B.reorder(P)` — output bit `i` is input
bit `P[i]` for `i < len(P)`, and input bit `i` (identity) past the end
of the permutation prefix. -/
def reorder (B : List Bool) (P : List Nat) : List Bool :=
  (List.range B.length).map (fun i =>
    if i < P.length then B.getD (P.getD i 0) false else B.getD i false)

/-- Modelled from the spec: `B.unreorder(P)` is the inverse of
`reorder`: output bit `P[i]` is input bit `i` on the permutation
prefix, identity past its end. -/
def unreorder (B : List Bool) (P : List Nat) : List Bool :=
  (List.range B.length).map (fun i =>
    if i < P.length then B.getD (List.indexOf i P) false else B.getD i false)

end Bits

/-- The validity requirement on a reorder sequence: its entries form a
permutation of `0 .. len(P) - 1`. -/
def PrefixPerm (P : List Nat) : Prop :=
  P.Nodup ∧ ∀ x ∈ P, x < P.length

instance (P : List Nat) : Decidable (PrefixPerm P) := by
  unfold PrefixPerm; infer_instance

/-- Modelled from the spec: a read cursor over a bit buffer. -/
structure BitStream where
  buffer : List Bool
  offset : Nat

namespace BitStream

/-- Modelled from the spec: `remaining()` is the number of unread
bits. -/
def remaining (s : BitStream) : Nat :=
  s.buffer.length - s.offset

/-- Modelled from the spec: `take(n)` returns the next `n` bits and the
advanced cursor, failing when fewer than `n` bits remain. -/
def take (s : BitStream) (n : Nat) : Except Err (List Bool × BitStream) :=
  if s.offset + n ≤ s.buffer.length then
    .ok ((s.buffer.drop s.offset).take n, ⟨s.buffer, s.offset + n⟩)
  else
    .error ⟨.shortBuffer, "not enough bits"⟩

/-- Modelled from the spec: reordering a stream reorders the underlying
buffer and resets the offset to 0. -/
def reorder (s : BitStream) (P : List Nat) : BitStream :=
  ⟨Bits.reorder s.buffer P, 0⟩

end BitStream

/-! ### Schema builders -/

/-- A shallow rendering of a value for exception messages. -/
def reprV : Value → String
  | .vBits _ => "Bits"
  | .vInt i => toString i
  | .vBool b => toString b
  | .vStr s => s
  | .vBytes _ => "bytes"
  | .vList _ => "list"
  | .vNone => "None"
  | .vRecord cls _ _ => cls ++ "(...)"

/-- `bf_bits(n, default=...)`. -/
def bf_bits (n : Nat) (default : Option Value) : BFType :=
  .bfBits n default

/-- `bf_map(field, vm, default=...)`. -/
def bf_map (field : BFType) (fwd bck : Value → Except Err Value)
    (default : Option Value) : BFType :=
  .bfMap fwd bck field default

/-- `BitsAsInt.forward`: `x.to_int()`. -/
def fwdBitsAsInt : Value → Except Err Value
  | .vBits b => .ok (.vInt (bits_to_int b))
  | v => .error ⟨.typeError, "expected Bits, got " ++ reprV v⟩

/-- `BitsAsInt.back`: `Bits.from_int(y, n)`. -/
def bckBitsAsInt (n : Nat) : Value → Except Err Value
  | .vInt y =>
      match bits_from_int y n with
      | .error e => .error e
      | .ok b => .ok (.vBits b)
  | v => .error ⟨.typeError, "expected int, got " ++ reprV v⟩

/-- `bf_int(n, default=...)`: a `BitsAsInt` mapper over `bf_bits(n)`. -/
def bf_int (n : Nat) (default : Option Value) : BFType :=
  bf_map (bf_bits n none) fwdBitsAsInt (bckBitsAsInt n) default

/-- `IntAsBool.forward`: `x == 1`. -/
def fwdIntAsBool : Value → Except Err Value
  | .vInt x => .ok (.vBool (x == 1))
  | v => .error ⟨.typeError, "expected int, got " ++ reprV v⟩

/-- `IntAsBool.back`: `1 if y else 0`. -/
def bckIntAsBool : Value → Except Err Value
  | .vBool y => .ok (.vInt (if y then 1 else 0))
  | v => .error ⟨.typeError, "expected bool, got " ++ reprV v⟩

/-- `bf_bool(default=...)`: an `IntAsBool` mapper over `bf_int(1)`. -/
def bf_bool (default : Option Value) : BFType :=
  bf_map (bf_int 1 none) fwdIntAsBool bckIntAsBool default

/-- `bf_list(item, n)` (no default supplied). -/
def bf_list (item : BFType) (n : Nat) : BFType :=
  .bfList item n none

/-- `ListAsBytes.forward`: `bytes(x)`, which requires every element to
be an integer in `0 .. 255`. -/
def fwdListAsBytes : Value → Except Err Value
  | .vList xs =>
      match xs.mapM (fun x =>
        match x with
        | Value.vInt i => if 0 ≤ i ∧ i < 256 then some i.toNat else none
        | _ => none) with
      | some bs => .ok (.vBytes bs)
      | none => .error ⟨.valueError, "bytes must be in range 0..255"⟩
  | v => .error ⟨.typeError, "expected list, got " ++ reprV v⟩

/-- `ListAsBytes.back`: `list(y)`. -/
def bckListAsBytes : Value → Except Err Value
  | .vBytes bs => .ok (.vList (bs.map (fun b => .vInt b)))
  | v => .error ⟨.typeError, "expected bytes, got " ++ reprV v⟩

/-- `bf_bytes(n)` (no default supplied): a `ListAsBytes` mapper over
`bf_list(bf_int(8), n)`. -/
def bf_bytes (n : Nat) : BFType :=
  bf_map (bf_list (bf_int 8 none) n) fwdListAsBytes bckListAsBytes none

/-- The UTF-8 encoding of a string as a byte list. -/
def utf8Bytes (s : String) : List Nat :=
  s.toUTF8.toList.map (fun b => b.toNat)

/-- A byte list as a `ByteArray`. -/
def byteArrayOf (bs : List Nat) : ByteArray :=
  ⟨(bs.map (fun n => UInt8.ofNat n)).toArray⟩

/-- `BytesAsStr.forward`: `x.decode(encoding)` for UTF-8. -/
def fwdBytesAsStr : Value → Except Err Value
  | .vBytes bs =>
      match String.fromUTF8? (byteArrayOf bs) with
      | some s => .ok (.vStr s)
      | none => .error ⟨.valueError, "invalid utf-8"⟩
  | v => .error ⟨.typeError, "expected bytes, got " ++ reprV v⟩

/-- `BytesAsStr.back`: `y.encode(encoding)` for UTF-8. -/
def bckBytesAsStr : Value → Except Err Value
  | .vStr s => .ok (.vBytes (utf8Bytes s))
  | v => .error ⟨.typeError, "expected str, got " ++ reprV v⟩

/-- `bf_str(n)` (UTF-8, no default supplied): a `BytesAsStr` mapper
over `bf_bytes(n)`. -/
def bf_str (n : Nat) : BFType :=
  bf_map (bf_bytes n) fwdBytesAsStr bckBytesAsStr none

/-- `bf_lit(field, default=...)`. -/
def bf_lit (field : BFType) (default : Value) : BFType :=
  .bfLit field default

/-- `bf_lit_int(n, default=...)`: a literal over `bf_int(n)`. -/
def bf_lit_int (n : Nat) (default : Value) : BFType :=
  bf_lit (bf_int n none) default

/-- `bf_none()` (no default supplied). -/
def bf_none : BFType :=
  .bfNone none

/-- `bf_bitfield(cls, n)` (no default supplied). -/
def bf_bitfield (cls : String) (n : Nat) : BFType :=
  .bfBitfield cls n none

/-- `undisguise`: normalise a disguised field value into a descriptor.
A record class becomes a `Record` descriptor of its static length
(failing for dynamic-length classes), the `bool` class becomes the
`bf_bool` descriptor, `bytes` and `str` literals become `Lit`
descriptors over `bf_bytes`/`bf_str` of the literal's width, and
`None` becomes the zero-width descriptor. -/
def undisguise (env : Env) : Disguised → Except Err BFType
  | .dTy F => .ok F
  | .dCls cls =>
      match lookupSchema env cls with
      | none => .error ⟨.typeError, "expected a field type"⟩
      | some sch =>
          match schema_length sch with
          | none => .error ⟨.typeError, "cannot infer length for dynamic Bitfield"⟩
          | some l => .ok (bf_bitfield cls l)
  | .dBoolCls => .ok (bf_bool none)
  | .dBytes bs => .ok (bf_lit (bf_bytes bs.length) (.vBytes bs))
  | .dStr s => .ok (bf_lit (bf_str (utf8Bytes s).length) (.vStr s))
  | .dNone => .ok bf_none
  | .dOther => .error ⟨.typeError, "expected a field type"⟩

/-! ### The descriptor interpreter -/

/-- Rewrap a field error as
`error in field NAME of CLS: ...`, preserving the exception kind. -/
def wrapFieldErr (name cls : String) (e : Err) : Err :=
  ⟨e.kind, "error in field " ++ name ++ " of " ++ cls ++ ": " ++ e.msg⟩

/-- The literal-mismatch exception `expected DEFAULT, got VALUE`. -/
def litMismatch (dflt v : Value) : Err :=
  ⟨.valueError, "expected " ++ reprV dflt ++ ", got " ++ reprV v⟩

/-- The `DynSelfN` encode-dispatch exception. -/
def dynDispatchErr (v : Value) : Err :=
  ⟨.typeError,
    "dynamic fields that use discriminators with n bits remaining can only be used with Bitfield, str, bytes, or None values. " ++ reprV v ++ " is not supported"⟩

/-- Decode `n` copies of a field with the given element decoder. -/
def decode_list (dec : BitStream → Except Err (Value × BitStream)) :
    Nat → BitStream → Except Err (List Value × BitStream)
  | 0, s => .ok ([], s)
  | k + 1, s =>
      match dec s with
      | .error e => .error e
      | .ok (v, s2) =>
          match decode_list dec k s2 with
          | .error e => .error e
          | .ok (vs, s3) => .ok (v :: vs, s3)

/-- The field loop of `from_bitstream`: decode each declared field in
order, wrapping errors with the field name and growing the sibling
view. -/
def decode_fields (cls : String)
    (dec : BFType → BitStream → AttrList → Except Err (Value × BitStream)) :
    List (String × BFType) → BitStream → AttrList →
      Except Err (AttrList × BitStream)
  | [], s, proxy => .ok (proxy, s)
  | (name, F) :: rest, s, proxy =>
      match dec F s proxy with
      | .error e => .error (wrapFieldErr name cls e)
      | .ok (v, s2) => decode_fields cls dec rest s2 (proxy ++ [(name, v)])

/-- `Bitfield.__init__`: take each declared field from the keyword
arguments, fall back to the descriptor default, and fail on a missing
value.  No other validation is performed.  The new instance's
`bitfield_context` is the class default `None`. -/
def bitfield_init (sch : Schema) (kwargs : AttrList) : Except Err Value :=
  match go sch.fields with
  | .error e => .error e
  | .ok attrs => .ok (.vRecord sch.name attrs .vNone)
where
  go : List (String × BFType) → Except Err AttrList
    | [] => .ok []
    | (name, F) :: rest =>
        match kwargs.lookup name with
        | some v =>
            match go rest with
            | .error e => .error e
            | .ok attrs => .ok ((name, v) :: attrs)
        | none =>
            match F.default with
            | some d =>
                match go rest with
                | .error e => .error e
                | .ok attrs => .ok ((name, d) :: attrs)
            | none => .error ⟨.valueError, "missing value for field " ++ name⟩

/-- `Bitfield.from_bitstream`, generic in the per-field decoder: seed
the sibling view with the context, reorder the stream once, decode the
fields, construct the instance. -/
def from_bitstream_g
    (dec : BFType → BitStream → AttrList → Except Err (Value × BitStream))
    (sch : Schema) (s : BitStream) (ctx : Value) :
    Except Err (Value × BitStream) :=
  match decode_fields sch.name dec sch.fields (s.reorder sch.reorder)
      [("bitfield_context", ctx)] with
  | .error e => .error e
  | .ok (proxy, s2) =>
      match bitfield_init sch proxy with
      | .error e => .error e
      | .ok v => .ok (v, s2)

/-- `Bitfield.from_bits`, generic in the per-field decoder: wrap the
buffer in a fresh stream, run `from_bitstream`, and fail if any bits
are left over. -/
def from_bits_g
    (dec : BFType → BitStream → AttrList → Except Err (Value × BitStream))
    (sch : Schema) (bits : List Bool) (ctx : Value) : Except Err Value :=
  match from_bitstream_g dec sch ⟨bits, 0⟩ ctx with
  | .error e => .error e
  | .ok (v, s2) =>
      if s2.remaining ≠ 0 then
        .error ⟨.valueError,
          "Bits left over after parsing " ++ sch.name ++
            " (" ++ toString s2.remaining ++ ")"⟩
      else
        .ok v

/-- `bftype_from_bitstream`: the decode traversal over one descriptor.
The `Nat` is recursion fuel, decremented once per descriptor node; the
Python original recurses unboundedly. -/
def bftype_from_bitstream (env : Env) :
    Nat → BFType → BitStream → AttrList → Value →
      Except Err (Value × BitStream)
  | 0, _, _, _, _ => .error ⟨.fuelOut, "recursion limit"⟩
  | f + 1, F, s, proxy, ctx =>
    match F with
    | .bfBits n _ =>
        match s.take n with
        | .error e => .error e
        | .ok (b, s2) => .ok (.vBits b, s2)
    | .bfList inner n _ =>
        match decode_list
            (fun s2 => bftype_from_bitstream env f inner s2 proxy ctx) n s with
        | .error e => .error e
        | .ok (vs, s2) => .ok (.vList vs, s2)
    | .bfMap fwd _ inner _ =>
        match bftype_from_bitstream env f inner s proxy ctx with
        | .error e => .error e
        | .ok (v, s2) =>
            match fwd v with
            | .error e => .error e
            | .ok w => .ok (w, s2)
    | .bfDynSelf fn _ =>
        match undisguise env (fn proxy) with
        | .error e => .error e
        | .ok F2 => bftype_from_bitstream env f F2 s proxy ctx
    | .bfDynSelfN fn _ =>
        match undisguise env (fn proxy s.remaining) with
        | .error e => .error e
        | .ok F2 => bftype_from_bitstream env f F2 s proxy ctx
    | .bfLit inner dflt =>
        match bftype_from_bitstream env f inner s proxy ctx with
        | .error e => .error e
        | .ok (v, s2) =>
            if valueEqF env (f + 1) v dflt then .ok (v, s2)
            else .error (litMismatch dflt v)
    | .bfNone _ => .ok (.vNone, s)
    | .bfBitfield cls n _ =>
        match s.take n with
        | .error e => .error e
        | .ok (bits, s2) =>
            match lookupSchema env cls with
            | none => .error ⟨.typeError, "unknown Bitfield class " ++ cls⟩
            | some sch =>
                match from_bits_g
                    (fun F2 s3 p2 => bftype_from_bitstream env f F2 s3 p2 ctx)
                    sch bits ctx with
                | .error e => .error e
                | .ok v => .ok (v, s2)

/-- Encode each element of a list field and concatenate. -/
def encode_items (enc : Value → Except Err (List Bool)) :
    List Value → Except Err (List Bool)
  | [] => .ok []
  | x :: rest =>
      match enc x with
      | .error e => .error e
      | .ok bits =>
          match encode_items enc rest with
          | .error e => .error e
          | .ok bits2 => .ok (bits ++ bits2)

/-- The field loop of `to_bits`: look each declared field up on the
instance, encode it (wrapping errors with the field name), and
concatenate in declaration order. -/
def encode_fields (cls : String)
    (enc : BFType → Value → AttrList → Except Err (List Bool)) :
    List (String × BFType) → AttrList → AttrList →
      Except Err (List Bool)
  | [], _, _ => .ok []
  | (name, F) :: rest, selfAttrs, pv =>
      match selfAttrs.lookup name with
      | none => .error ⟨.typeError, "no attribute " ++ name⟩
      | some v =>
          match enc F v pv with
          | .error e => .error (wrapFieldErr name cls e)
          | .ok bits =>
              match encode_fields cls enc rest selfAttrs pv with
              | .error e => .error e
              | .ok bits2 => .ok (bits ++ bits2)

/-- `Bitfield.to_bits`, generic in the per-field encoder.  The method
first sets `bitfield_context` on the instance, then encodes the
declared fields in order and applies `unreorder`; the returned pair is
the bit buffer together with the mutated instance. -/
def to_bits_g (env : Env)
    (enc : BFType → Value → AttrList → Except Err (List Bool))
    (v : Value) (ctx : Value) : Except Err (List Bool × Value) :=
  match v with
  | .vRecord cls attrs _ =>
      match lookupSchema env cls with
      | none => .error ⟨.typeError, "unknown Bitfield class " ++ cls⟩
      | some sch =>
          match encode_fields cls enc sch.fields attrs
              (attrs ++ [("bitfield_context", ctx)]) with
          | .error e => .error e
          | .ok bits =>
              .ok (Bits.unreorder bits sch.reorder, .vRecord cls attrs ctx)
  | _ => .error ⟨.typeError, "expected Bitfield, got " ++ reprV v⟩

/-- `bftype_to_bits`: the encode traversal over one descriptor.  The
`Nat` is recursion fuel, decremented once per descriptor node. -/
def bftype_to_bits (env : Env) :
    Nat → BFType → Value → AttrList → Value → Except Err (List Bool)
  | 0, _, _, _, _ => .error ⟨.fuelOut, "recursion limit"⟩
  | f + 1, F, v, pv, ctx =>
    match F with
    | .bfBits n _ =>
        match v with
        | .vBits b =>
            if b.length ≠ n then
              .error ⟨.valueError,
                "expected " ++ toString n ++ " bits, got " ++ toString b.length⟩
            else .ok b
        | _ => .error ⟨.typeError, "expected Bits, got " ++ reprV v⟩
    | .bfList inner n _ =>
        match v with
        | .vList xs =>
            if xs.length ≠ n then
              .error ⟨.valueError,
                "expected " ++ toString n ++ " items, got " ++ toString xs.length⟩
            else
              encode_items (fun x => bftype_to_bits env f inner x pv ctx) xs
        | _ => .error ⟨.typeError, "expected list, got " ++ reprV v⟩
    | .bfMap _ bck inner _ =>
        match bck v with
        | .error e => .error e
        | .ok w => bftype_to_bits env f inner w pv ctx
    | .bfDynSelf fn _ =>
        match undisguise env (fn pv) with
        | .error e => .error e
        | .ok F2 => bftype_to_bits env f F2 v pv ctx
    | .bfDynSelfN _ _ =>
        match v with
        | .vRecord cls _ _ =>
            match undisguise env (.dCls cls) with
            | .error e => .error e
            | .ok F2 => bftype_to_bits env f F2 v pv ctx
        | .vStr s =>
            match undisguise env (.dStr s) with
            | .error e => .error e
            | .ok F2 => bftype_to_bits env f F2 v pv ctx
        | .vBytes bs =>
            match undisguise env (.dBytes bs) with
            | .error e => .error e
            | .ok F2 => bftype_to_bits env f F2 v pv ctx
        | .vNone =>
            match undisguise env .dNone with
            | .error e => .error e
            | .ok F2 => bftype_to_bits env f F2 v pv ctx
        | _ => .error (dynDispatchErr v)
    | .bfLit inner dflt =>
        if valueEqF env (f + 1) v dflt then
          bftype_to_bits env f inner v pv ctx
        else .error (litMismatch dflt v)
    | .bfNone _ =>
        match v with
        | .vNone => .ok []
        | _ => .error ⟨.valueError, "expected None, got " ++ reprV v⟩
    | .bfBitfield _ n _ =>
        match v with
        | .vRecord _ _ _ =>
            match to_bits_g env
                (fun F2 x pv2 => bftype_to_bits env f F2 x pv2 ctx) v ctx with
            | .error e => .error e
            | .ok (out, _) =>
                if out.length ≠ n then
                  .error ⟨.valueError,
                    "expected " ++ toString n ++ " bits, got " ++
                      toString out.length⟩
                else .ok out
        | _ => .error ⟨.typeError, "expected Bitfield, got " ++ reprV v⟩

/-! ### Public record operations -/

/-- `Bitfield.from_bitstream(stream, context)`. -/
def from_bitstream (env : Env) (fuel : Nat) (sch : Schema)
    (s : BitStream) (ctx : Value) : Except Err (Value × BitStream) :=
  from_bitstream_g
    (fun F s2 p => bftype_from_bitstream env fuel F s2 p ctx) sch s ctx

/-- `Bitfield.from_bits(bits, context)`. -/
def from_bits (env : Env) (fuel : Nat) (sch : Schema)
    (bits : List Bool) (ctx : Value) : Except Err Value :=
  from_bits_g
    (fun F s2 p => bftype_from_bitstream env fuel F s2 p ctx) sch bits ctx

/-- `instance.to_bits(context)`: the encoded buffer together with the
mutated instance (`to_bits` sets `bitfield_context` on `self`). -/
def to_bits (env : Env) (fuel : Nat) (v : Value) (ctx : Value) :
    Except Err (List Bool × Value) :=
  to_bits_g env (fun F x pv => bftype_to_bits env fuel F x pv ctx) v ctx

/-- `instance.to_bytes(context)`. -/
def to_bytes (env : Env) (fuel : Nat) (v : Value) (ctx : Value) :
    Except Err (List Nat) :=
  match to_bits env fuel v ctx with
  | .error e => .error e
  | .ok (bits, _) => bits_to_bytes bits

/-! ### Claim C4: length inference -/

/-- Spec-side definition (from the claim's words): does the descriptor
tree contain a `DynSelf` or `DynSelfN` node?  `Record` is a leaf of the
tree. -/
def spec_has_dyn : BFType → Bool
  | .bfDynSelf _ _ => true
  | .bfDynSelfN _ _ => true
  | .bfList inner _ _ => spec_has_dyn inner
  | .bfMap _ _ inner _ => spec_has_dyn inner
  | .bfLit inner _ => spec_has_dyn inner
  | .bfBits _ _ => false
  | .bfNone _ => false
  | .bfBitfield _ _ _ => false

/-- Spec-side definition (from the claim's words): the structural
length of a descriptor — `Bits(n)` and `Record(_, n)` contribute `n`,
`None` contributes 0, `List(inner, n)` contributes `n` times the inner
length, `Map` and `Lit` contribute their inner length.  (On a dynamic
descriptor the value is irrelevant.) -/
def spec_struct_len : BFType → Nat
  | .bfBits n _ => n
  | .bfBitfield _ n _ => n
  | .bfNone _ => 0
  | .bfList inner n _ => n * spec_struct_len inner
  | .bfMap _ _ inner _ => spec_struct_len inner
  | .bfLit inner _ => spec_struct_len inner
  | .bfDynSelf _ _ => 0
  | .bfDynSelfN _ _ => 0

theorem bftype_length_none_iff (F : BFType) :
    bftype_length F = none ↔ spec_has_dyn F = true :=
  match F with
  | .bfBits _ _ => by simp [bftype_length, spec_has_dyn]
  | .bfList inner _ _ => by
      have ih := bftype_length_none_iff inner
      simp only [bftype_length, spec_has_dyn]
      cases h : bftype_length inner with
      | none => simpa [h] using ih
      | some l => simp only [h] at ih ⊢; simpa using ih
  | .bfMap _ _ inner _ => by
      have ih := bftype_length_none_iff inner
      simpa [bftype_length, spec_has_dyn] using ih
  | .bfDynSelf _ _ => by simp [bftype_length, spec_has_dyn]
  | .bfDynSelfN _ _ => by simp [bftype_length, spec_has_dyn]
  | .bfLit inner _ => by
      have ih := bftype_length_none_iff inner
      simpa [bftype_length, spec_has_dyn] using ih
  | .bfNone _ => by simp [bftype_length, spec_has_dyn]
  | .bfBitfield _ _ _ => by simp [bftype_length, spec_has_dyn]

theorem bftype_length_static (F : BFType) :
    spec_has_dyn F = false → bftype_length F = some (spec_struct_len F) :=
  match F with
  | .bfBits _ _ => by intro _; simp [bftype_length, spec_struct_len]
  | .bfList inner _ _ => by
      intro h
      simp only [spec_has_dyn] at h
      simp [bftype_length, bftype_length_static inner h, spec_struct_len]
  | .bfMap _ _ inner _ => by
      intro h
      simp only [spec_has_dyn] at h
      simp [bftype_length, bftype_length_static inner h, spec_struct_len]
  | .bfDynSelf _ _ => by intro h; simp [spec_has_dyn] at h
  | .bfDynSelfN _ _ => by intro h; simp [spec_has_dyn] at h
  | .bfLit inner _ => by
      intro h
      simp only [spec_has_dyn] at h
      simp [bftype_length, bftype_length_static inner h, spec_struct_len]
  | .bfNone _ => by intro _; simp [bftype_length, spec_struct_len]
  | .bfBitfield _ _ _ => by intro _; simp [bftype_length, spec_struct_len]

theorem schema_length_go_static :
    ∀ (fields : List (String × BFType)) (acc : Nat),
      (∀ p ∈ fields, spec_has_dyn p.2 = false) →
      schema_length.go fields acc =
        some (acc + (fields.map (fun p => spec_struct_len p.2)).sum) := by
  intro fields
  induction fields with
  | nil => intro acc _; simp [schema_length.go]
  | cons p rest ih =>
      intro acc h
      obtain ⟨name, F⟩ := p
      have hF : spec_has_dyn F = false := h (name, F) (by simp)
      have hrest : ∀ q ∈ rest, spec_has_dyn q.2 = false := by
        intro q hq; exact h q (by simp [hq])
      simp [schema_length.go, bftype_length_static F hF, ih (acc + spec_struct_len F) hrest,
        Nat.add_assoc]

theorem schema_length_go_none :
    ∀ (fields : List (String × BFType)) (acc : Nat),
      (∃ p ∈ fields, spec_has_dyn p.2 = true) →
      schema_length.go fields acc = none := by
  intro fields
  induction fields with
  | nil => intro acc h; simp at h
  | cons p rest ih =>
      intro acc h
      obtain ⟨name, F⟩ := p
      rcases h with ⟨q, hq, hdyn⟩
      rcases List.mem_cons.mp hq with h1 | h2
      · subst h1
        have : bftype_length F = none := (bftype_length_none_iff F).mpr hdyn
        simp [schema_length.go, this]
      · cases hlen : bftype_length F with
        | none => simp [schema_length.go, hlen]
        | some l => simp [schema_length.go, hlen, ih _ ⟨q, h2, hdyn⟩]

/-- C4: a record schema's `length()` is `none` exactly when some
field's descriptor tree contains a `DynSelf` or `DynSelfN` node, and
otherwise equals the sum over the fields of the structural lengths
(`Bits(n)` and `Record(_, n)` contribute `n`, `None` contributes 0,
`List(inner, n)` contributes `n` times the inner length, `Map` and
`Lit` contribute their inner length); likewise for a single field
descriptor. -/
theorem c4_length_inference :
    (∀ F : BFType,
      (bftype_length F = none ↔ spec_has_dyn F = true) ∧
      (spec_has_dyn F = false →
        bftype_length F = some (spec_struct_len F))) ∧
    (∀ sch : Schema,
      (schema_length sch = none ↔ ∃ p ∈ sch.fields, spec_has_dyn p.2 = true) ∧
      ((∀ p ∈ sch.fields, spec_has_dyn p.2 = false) →
        schema_length sch =
          some ((sch.fields.map (fun p => spec_struct_len p.2)).sum))) := by
  constructor
  · intro F
    exact ⟨bftype_length_none_iff F, bftype_length_static F⟩
  · intro sch
    constructor
    · constructor
      · intro h
        by_contra hno
        push_neg at hno
        have hall : ∀ p ∈ sch.fields, spec_has_dyn p.2 = false := by
          intro p hp
          have := hno p hp
          simpa using this
        rw [schema_length, schema_length_go_static sch.fields 0 hall] at h
        simp at h
      · intro h
        rw [schema_length, schema_length_go_none sch.fields 0 h]
    · intro hall
      rw [schema_length, schema_length_go_static sch.fields 0 hall]
      simp

/-- C4 witness: evaluation at a concrete static schema and at a
concrete dynamic field. -/
theorem c4_length_inference_witness :
    schema_length ⟨"AB", [("a", bf_int 3 none), ("b", bf_int 5 none)], [], []⟩ =
      some ((([("a", bf_int 3 none), ("b", bf_int 5 none)] :
        List (String × BFType)).map (fun p => spec_struct_len p.2)).sum) ∧
    bftype_length (.bfDynSelf (fun _ => .dNone) none) = none := by
  constructor
  · exact (c4_length_inference.2
      ⟨"AB", [("a", bf_int 3 none), ("b", bf_int 5 none)], [], []⟩).2
      (by decide)
  · exact ((c4_length_inference.1 (.bfDynSelf (fun _ => .dNone) none)).1).mpr rfl

/-! ### Claim C6: inner descriptors with defaults -/

/-- C6 (evaluation at the failing input): the schema-finalisation check
rejects a field whose inner descriptor is a `Lit` — here
`List(Lit(int(4), 0), 2)`, an inner literal carrying only its inherent
required value — because a literal's default is always "provided".
The claim (and the check's own error message, which says
"except literal fields") state that an inner `Lit` is permitted. -/
theorem c6_inner_lit_rejected :
    bftype_has_children_with_default
        (.bfList (bf_lit_int 4 (.vInt 0)) 2 none) = true ∧
    field_definition_check (.bfList (bf_lit_int 4 (.vInt 0)) 2 none) =
      .error ⟨.valueError,
        "inner field definitions cannot have defaults set (except literal fields)"⟩ ∧
    bftype_has_children_with_default
        (.bfList (bf_int 4 none) 2 none) = false := by
  exact ⟨rfl, rfl, rfl⟩

/-! ### Claim C2: `from_bits` is strict about leftover bits -/

/-- C2: `from_bits` succeeds exactly by running `from_bitstream` on a
fresh stream and consuming every bit; with bits left over it fails with
the leftover-bits `ValueError`; and a nested `Record(cls, n)` field
decodes by taking exactly `n` bits and delegating them to the class's
`from_bits` (hence inherits the all-bits-consumed requirement). -/
theorem c2_from_bits_strict :
    (∀ (env : Env) (fuel : Nat) (sch : Schema) (bits : List Bool) (ctx v : Value),
      from_bits env fuel sch bits ctx = .ok v →
      ∃ st, from_bitstream env fuel sch ⟨bits, 0⟩ ctx = .ok (v, st) ∧
        st.remaining = 0) ∧
    (∀ (env : Env) (fuel : Nat) (sch : Schema) (bits : List Bool)
        (ctx v : Value) (st : BitStream),
      from_bitstream env fuel sch ⟨bits, 0⟩ ctx = .ok (v, st) →
      st.remaining ≠ 0 →
      from_bits env fuel sch bits ctx = .error ⟨.valueError,
        "Bits left over after parsing " ++ sch.name ++
          " (" ++ toString st.remaining ++ ")"⟩) ∧
    (∀ (env : Env) (f : Nat) (cls : String) (n : Nat) (d : Option Value)
        (s : BitStream) (proxy : AttrList) (ctx : Value),
      bftype_from_bitstream env (f + 1) (.bfBitfield cls n d) s proxy ctx =
        match s.take n with
        | .error e => .error e
        | .ok (bits, s2) =>
            match lookupSchema env cls with
            | none => .error ⟨.typeError, "unknown Bitfield class " ++ cls⟩
            | some sch =>
                match from_bits env f sch bits ctx with
                | .error e => .error e
                | .ok v => .ok (v, s2)) := by
  refine ⟨?_, ?_, ?_⟩
  · intro env fuel sch bits ctx v h
    rw [from_bits, from_bits_g] at h
    rw [from_bitstream]
    cases hs : from_bitstream_g
        (fun F s2 p => bftype_from_bitstream env fuel F s2 p ctx)
        sch ⟨bits, 0⟩ ctx with
    | error e => rw [hs] at h; exact absurd h (by simp)
    | ok p =>
        obtain ⟨v0, st⟩ := p
        rw [hs] at h
        dsimp only at h
        by_cases hr : st.remaining ≠ 0
        · rw [if_pos hr] at h; exact absurd h (by simp)
        · rw [if_neg hr] at h
          cases h
          exact ⟨st, rfl, by omega⟩
  · intro env fuel sch bits ctx v st h hr
    rw [from_bitstream] at h
    rw [from_bits, from_bits_g, h]
    dsimp only
    rw [if_pos hr]
  · intro env f cls n d s proxy ctx
    rfl

/-- C2 witness: decoding a 9-bit buffer against an 8-bit schema leaves
one bit over and fails; the 8-bit buffer decodes with nothing left. -/
theorem c2_from_bits_strict_witness :
    (∃ st, from_bitstream [⟨"AB", [("a", bf_int 3 none), ("b", bf_int 5 none)], [], []⟩] 4
        ⟨"AB", [("a", bf_int 3 none), ("b", bf_int 5 none)], [], []⟩
        ⟨[true, false, true, false, true, false, false, true], 0⟩ .vNone =
          .ok (.vRecord "AB" [("a", .vInt 5), ("b", .vInt 9)] .vNone, st) ∧
        st.remaining = 0) ∧
    from_bits [⟨"AB", [("a", bf_int 3 none), ("b", bf_int 5 none)], [], []⟩] 4
        ⟨"AB", [("a", bf_int 3 none), ("b", bf_int 5 none)], [], []⟩
        [true, false, true, false, true, false, false, true, true] .vNone =
      .error ⟨.valueError, "Bits left over after parsing AB (1)"⟩ := by
  constructor
  · exact c2_from_bits_strict.1 _ 4 _ _ .vNone _ (by rfl)
  · exact c2_from_bits_strict.2.1 _ 4 _ _ .vNone
      (.vRecord "AB" [("a", .vInt 5), ("b", .vInt 9)] .vNone)
      ⟨[true, false, true, false, true, false, false, true, true], 8⟩
      (by rfl) (by decide)

/-! ### Claim C7: `DynSelfN` encode-side dispatch -/

/-- C7: encoding a `DynSelfN` field dispatches on the value itself —
a record instance selects its own class as the descriptor, a `str`,
`bytes` or `None` value is normalised into a descriptor from the value
itself, and every other value fails with the dispatch `TypeError` —
and the dispatcher function is never consulted (the result does not
depend on it). -/
theorem c7_dynselfn_encode_dispatch :
    (∀ (env : Env) (f : Nat) (fn fn2 : AttrList → Nat → Disguised)
        (d d2 : Option Value) (v : Value) (pv : AttrList) (ctx : Value),
      bftype_to_bits env f (.bfDynSelfN fn d) v pv ctx =
        bftype_to_bits env f (.bfDynSelfN fn2 d2) v pv ctx) ∧
    (∀ (env : Env) (f : Nat) (fn : AttrList → Nat → Disguised)
        (d : Option Value) (cls : String) (attrs : AttrList)
        (c0 : Value) (pv : AttrList) (ctx : Value),
      bftype_to_bits env (f + 1) (.bfDynSelfN fn d)
          (.vRecord cls attrs c0) pv ctx =
        match undisguise env (.dCls cls) with
        | .error e => .error e
        | .ok F2 => bftype_to_bits env f F2 (.vRecord cls attrs c0) pv ctx) ∧
    (∀ (env : Env) (f : Nat) (fn : AttrList → Nat → Disguised)
        (d : Option Value) (s : String) (pv : AttrList) (ctx : Value),
      bftype_to_bits env (f + 1) (.bfDynSelfN fn d) (.vStr s) pv ctx =
        match undisguise env (.dStr s) with
        | .error e => .error e
        | .ok F2 => bftype_to_bits env f F2 (.vStr s) pv ctx) ∧
    (∀ (env : Env) (f : Nat) (fn : AttrList → Nat → Disguised)
        (d : Option Value) (bs : List Nat) (pv : AttrList) (ctx : Value),
      bftype_to_bits env (f + 1) (.bfDynSelfN fn d) (.vBytes bs) pv ctx =
        match undisguise env (.dBytes bs) with
        | .error e => .error e
        | .ok F2 => bftype_to_bits env f F2 (.vBytes bs) pv ctx) ∧
    (∀ (env : Env) (f : Nat) (fn : AttrList → Nat → Disguised)
        (d : Option Value) (pv : AttrList) (ctx : Value),
      bftype_to_bits env (f + 1) (.bfDynSelfN fn d) .vNone pv ctx =
        match undisguise env .dNone with
        | .error e => .error e
        | .ok F2 => bftype_to_bits env f F2 .vNone pv ctx) ∧
    (∀ (env : Env) (f : Nat) (fn : AttrList → Nat → Disguised)
        (d : Option Value) (i : Int) (pv : AttrList) (ctx : Value),
      bftype_to_bits env (f + 1) (.bfDynSelfN fn d) (.vInt i) pv ctx =
        .error (dynDispatchErr (.vInt i))) ∧
    (∀ (env : Env) (f : Nat) (fn : AttrList → Nat → Disguised)
        (d : Option Value) (b : Bool) (pv : AttrList) (ctx : Value),
      bftype_to_bits env (f + 1) (.bfDynSelfN fn d) (.vBool b) pv ctx =
        .error (dynDispatchErr (.vBool b))) ∧
    (∀ (env : Env) (f : Nat) (fn : AttrList → Nat → Disguised)
        (d : Option Value) (b : List Bool) (pv : AttrList) (ctx : Value),
      bftype_to_bits env (f + 1) (.bfDynSelfN fn d) (.vBits b) pv ctx =
        .error (dynDispatchErr (.vBits b))) ∧
    (∀ (env : Env) (f : Nat) (fn : AttrList → Nat → Disguised)
        (d : Option Value) (xs : List Value) (pv : AttrList) (ctx : Value),
      bftype_to_bits env (f + 1) (.bfDynSelfN fn d) (.vList xs) pv ctx =
        .error (dynDispatchErr (.vList xs))) := by
  refine ⟨?_, fun _ _ _ _ _ _ _ _ _ => rfl, fun _ _ _ _ _ _ _ => rfl,
    fun _ _ _ _ _ _ _ => rfl, fun _ _ _ _ _ _ => rfl,
    fun _ _ _ _ _ _ _ => rfl, fun _ _ _ _ _ _ _ => rfl,
    fun _ _ _ _ _ _ _ => rfl, fun _ _ _ _ _ _ _ => rfl⟩
  intro env f fn fn2 d d2 v pv ctx
  match f with
  | 0 => rfl
  | f + 1 => cases v <;> rfl

/-! ### Claim C8: the packed integer record scenario -/

/-- The `{a: int(3), b: int(5)}` schema of the spec's first concrete
scenario. -/
def schemaAB : Schema :=
  ⟨"AB", [("a", bf_int 3 none), ("b", bf_int 5 none)], [], []⟩

/-- An environment holding only `schemaAB`. -/
def envAB : Env := [schemaAB]

/-- The instance `{a: 5, b: 9}`. -/
def xAB : Value := .vRecord "AB" [("a", .vInt 5), ("b", .vInt 9)] .vNone

/-- C8: encoding `{a: 5, b: 9}` against `{a: int(3), b: int(5)}` yields
the bits `10101001`, i.e. the byte `0xA9 = 169`; encoding `{a: 8, b: _}`
fails with the out-of-range `ValueError` regardless of `b`; and in
general an integer field of width `n` rejects any value `v` with
`v < 0` or `v ≥ 2^n`. -/
theorem c8_packed_int_record :
    to_bits envAB 8 xAB .vNone =
      .ok ([true, false, true, false, true, false, false, true],
        .vRecord "AB" [("a", .vInt 5), ("b", .vInt 9)] .vNone) ∧
    to_bytes envAB 8 xAB .vNone = .ok [169] ∧
    (∀ bv : Value,
      to_bits envAB 8 (.vRecord "AB" [("a", .vInt 8), ("b", bv)] .vNone)
          .vNone =
        .error ⟨.valueError, "error in field a of AB: value out of range"⟩) ∧
    (∀ (env : Env) (f n : Nat) (d : Option Value) (i : Int)
        (pv : AttrList) (ctx : Value),
      i < 0 ∨ (2 : Int) ^ n ≤ i →
      bftype_to_bits env (f + 1) (bf_int n d) (.vInt i) pv ctx =
        .error ⟨.valueError, "value out of range"⟩) := by
  refine ⟨by rfl, by rfl, fun bv => by rfl, ?_⟩
  intro env f n d i pv ctx h
  have hb : bckBitsAsInt n (.vInt i) =
      .error ⟨.valueError, "value out of range"⟩ := by
    simp only [bckBitsAsInt, bits_from_int, if_pos h]
  simp only [bf_int, bf_map, bftype_to_bits, hb]

/-- C8 witness: the out-of-range rejection evaluated at `v = 8`,
`n = 3`. -/
theorem c8_packed_int_record_witness :
    bftype_to_bits envAB 1 (bf_int 3 none) (.vInt 8) [] .vNone =
      .error ⟨.valueError, "value out of range"⟩ :=
  c8_packed_int_record.2.2.2 envAB 0 3 none 8 [] .vNone (by decide)

/-! ### Claim C10: `to_bits` mutates `bitfield_context` -/

/-- C10: a successful `x.to_bits(c)` leaves every declared field
attribute of `x` unchanged but sets the instance's `bitfield_context`
to `c`; a second call with another context overwrites it, so the last
context stays observable on the instance. -/
theorem c10_to_bits_sets_context :
    ∀ (env : Env) (f : Nat) (cls : String) (attrs : AttrList)
      (c0 ctx : Value) (bits : List Bool) (x2 : Value),
      to_bits env f (.vRecord cls attrs c0) ctx = .ok (bits, x2) →
      x2 = .vRecord cls attrs ctx ∧
      ∀ (g : Nat) (ctx2 : Value) (bits2 : List Bool) (x3 : Value),
        to_bits env g x2 ctx2 = .ok (bits2, x3) →
        x3 = .vRecord cls attrs ctx2 := by
  have key : ∀ (env : Env) (f : Nat) (cls : String) (attrs : AttrList)
      (c0 ctx : Value) (bits : List Bool) (x2 : Value),
      to_bits env f (.vRecord cls attrs c0) ctx = .ok (bits, x2) →
      x2 = .vRecord cls attrs ctx := by
    intro env f cls attrs c0 ctx bits x2 h
    rw [to_bits, to_bits_g] at h
    cases hl : lookupSchema env cls with
    | none => rw [hl] at h; exact absurd h (by simp)
    | some sch =>
        rw [hl] at h
        dsimp only at h
        cases he : encode_fields cls
            (fun F x pv => bftype_to_bits env f F x pv ctx)
            sch.fields attrs (attrs ++ [("bitfield_context", ctx)]) with
        | error e => rw [he] at h; exact absurd h (by simp)
        | ok out =>
            rw [he] at h
            cases h
            rfl
  intro env f cls attrs c0 ctx bits x2 h
  have h1 := key env f cls attrs c0 ctx bits x2 h
  refine ⟨h1, ?_⟩
  intro g ctx2 bits2 x3 h2
  rw [h1] at h2
  exact key env g cls attrs ctx ctx2 bits2 x3 h2

/-- C10 witness: two successive encodes of the `{a: 5, b: 9}` instance
with contexts `1` then `2` leave `bitfield_context = 2`. -/
theorem c10_to_bits_sets_context_witness :
    (.vRecord "AB" [("a", .vInt 5), ("b", .vInt 9)] (.vInt 1) : Value) =
      .vRecord "AB" [("a", .vInt 5), ("b", .vInt 9)] (.vInt 1) ∧
    (.vRecord "AB" [("a", .vInt 5), ("b", .vInt 9)] (.vInt 2) : Value) =
      .vRecord "AB" [("a", .vInt 5), ("b", .vInt 9)] (.vInt 2) := by
  have h := c10_to_bits_sets_context envAB 8 "AB"
    [("a", .vInt 5), ("b", .vInt 9)] .vNone (.vInt 1)
    [true, false, true, false, true, false, false, true]
    (.vRecord "AB" [("a", .vInt 5), ("b", .vInt 9)] (.vInt 1)) (by rfl)
  exact ⟨h.1, h.2 8 (.vInt 2)
    [true, false, true, false, true, false, false, true]
    (.vRecord "AB" [("a", .vInt 5), ("b", .vInt 9)] (.vInt 2)) (by rfl)⟩

/-! ### Claim C3: literal discipline -/

/-- The `{tag: lit_int(4, 0xA), payload: int(4)}` schema. -/
def schemaLit : Schema :=
  ⟨"L", [("tag", bf_lit_int 4 (.vInt 10)), ("payload", bf_int 4 none)], [], []⟩

/-- C3 counterexample: constructing an instance whose `Lit` field value
differs from the literal default succeeds — `__init__` performs no
literal validation — although `5` and the required `10` are unequal
under the codec's own equality.  The claim states that any such
construction attempt fails. -/
theorem c3_construct_counterexample :
    bitfield_init schemaLit [("tag", .vInt 5), ("payload", .vInt 7)] =
      .ok (.vRecord "L" [("tag", .vInt 5), ("payload", .vInt 7)] .vNone) ∧
    valueEqF [schemaLit] 2 (.vInt 5) (.vInt 10) = false := by
  exact ⟨rfl, rfl⟩

theorem bitfield_init_go_total :
    ∀ (kwargs : AttrList) (fields : List (String × BFType)),
      (∀ p ∈ fields,
        (kwargs.lookup p.1).isSome = true ∨ (p.2).default.isSome = true) →
      ∃ attrs, bitfield_init.go kwargs fields = .ok attrs := by
  intro kwargs fields
  induction fields with
  | nil => intro _; exact ⟨[], rfl⟩
  | cons p rest ih =>
      intro h
      obtain ⟨name, F⟩ := p
      obtain ⟨attrs, hrest⟩ := ih (fun q hq => h q (by simp [hq]))
      have hp := h (name, F) (by simp)
      cases hk : kwargs.lookup name with
      | some v => exact ⟨(name, v) :: attrs, by rw [bitfield_init.go, hk, hrest]⟩
      | none =>
          cases hd : F.default with
          | some d =>
              exact ⟨(name, d) :: attrs, by rw [bitfield_init.go, hk]; dsimp only; rw [hd, hrest]⟩
          | none =>
              rw [hk, hd] at hp
              simp at hp

/-- C3 (amended): encoding a `Lit` field with a value unequal to the
default fails with the literal-mismatch error; decoding fails with that
error whenever the decoded inner value is unequal to the default and
returns the value when it is equal; but *construction* performs no
literal check — it succeeds whenever every field has a supplied value
or a default, whatever the supplied values are. -/
theorem c3_literal_discipline :
    (∀ (env : Env) (f : Nat) (inner : BFType) (dflt v : Value)
        (pv : AttrList) (ctx : Value),
      valueEqF env (f + 1) v dflt = false →
      bftype_to_bits env (f + 1) (.bfLit inner dflt) v pv ctx =
        .error (litMismatch dflt v)) ∧
    (∀ (env : Env) (f : Nat) (inner : BFType) (dflt : Value)
        (s : BitStream) (proxy : AttrList) (ctx v : Value) (s2 : BitStream),
      bftype_from_bitstream env f inner s proxy ctx = .ok (v, s2) →
      valueEqF env (f + 1) v dflt = false →
      bftype_from_bitstream env (f + 1) (.bfLit inner dflt) s proxy ctx =
        .error (litMismatch dflt v)) ∧
    (∀ (env : Env) (f : Nat) (inner : BFType) (dflt : Value)
        (s : BitStream) (proxy : AttrList) (ctx v : Value) (s2 : BitStream),
      bftype_from_bitstream env f inner s proxy ctx = .ok (v, s2) →
      valueEqF env (f + 1) v dflt = true →
      bftype_from_bitstream env (f + 1) (.bfLit inner dflt) s proxy ctx =
        .ok (v, s2)) ∧
    (∀ (sch : Schema) (kwargs : AttrList),
      (∀ p ∈ sch.fields,
        (kwargs.lookup p.1).isSome = true ∨ (p.2).default.isSome = true) →
      ∃ attrs, bitfield_init sch kwargs =
        .ok (.vRecord sch.name attrs .vNone)) := by
  refine ⟨?_, ?_, ?_, ?_⟩
  · intro env f inner dflt v pv ctx h
    simp only [bftype_to_bits, h]
    rfl
  · intro env f inner dflt s proxy ctx v s2 hdec h
    simp only [bftype_from_bitstream, hdec, h]
    rfl
  · intro env f inner dflt s proxy ctx v s2 hdec h
    simp only [bftype_from_bitstream, hdec, h]
    rfl
  · intro sch kwargs h
    obtain ⟨attrs, hgo⟩ := bitfield_init_go_total kwargs sch.fields h
    exact ⟨attrs, by rw [bitfield_init, hgo]⟩

/-- C3 witness: the amended behaviours evaluated on the
`{tag: lit_int(4, 0xA), payload: int(4)}` schema — encoding `tag = 5`
fails, decoding `0xB7` fails at `tag`, decoding `0xA7` returns
`tag = 10`, and construction succeeds with every field supplied. -/
theorem c3_literal_discipline_witness :
    bftype_to_bits [schemaLit] 3 (.bfLit (bf_int 4 none) (.vInt 10))
        (.vInt 5) [] .vNone = .error (litMismatch (.vInt 10) (.vInt 5)) ∧
    bftype_from_bitstream [schemaLit] 3 (.bfLit (bf_int 4 none) (.vInt 10))
        ⟨[true, false, true, true], 0⟩ [] .vNone =
      .error (litMismatch (.vInt 10) (.vInt 11)) ∧
    bftype_from_bitstream [schemaLit] 3 (.bfLit (bf_int 4 none) (.vInt 10))
        ⟨[true, false, true, false], 0⟩ [] .vNone =
      .ok (.vInt 10, ⟨[true, false, true, false], 4⟩) ∧
    (∃ attrs, bitfield_init schemaLit [("tag", .vInt 10), ("payload", .vInt 7)] =
      .ok (.vRecord "L" attrs .vNone)) := by
  refine ⟨?_, ?_, ?_, ?_⟩
  · exact c3_literal_discipline.1 [schemaLit] 2 (bf_int 4 none)
      (.vInt 10) (.vInt 5) [] .vNone (by rfl)
  · exact c3_literal_discipline.2.1 [schemaLit] 2 (bf_int 4 none)
      (.vInt 10) ⟨[true, false, true, true], 0⟩ [] .vNone (.vInt 11)
      ⟨[true, false, true, true], 4⟩ (by rfl) (by rfl)
  · exact c3_literal_discipline.2.2.1 [schemaLit] 2 (bf_int 4 none)
      (.vInt 10) ⟨[true, false, true, false], 0⟩ [] .vNone (.vInt 10)
      ⟨[true, false, true, false], 4⟩ (by rfl) (by rfl)
  · exact c3_literal_discipline.2.2.2 schemaLit
      [("tag", .vInt 10), ("payload", .vInt 7)]
      (by intro p hp; left; fin_cases hp <;> rfl)

/-! ### Claim C5: structural equality across schemas -/

/-- A base record class with one field. -/
def schemaBase : Schema := ⟨"Base", [("a", bf_int 8 none)], [], []⟩

/-- A record class extending `Base` with one more field; its `_fields`
are the copied base fields followed by its own, and `Base` is among its
ancestors. -/
def schemaDerived : Schema :=
  ⟨"Derived", [("a", bf_int 8 none), ("b", bf_int 8 none)], [], ["Base"]⟩

/-- The environment holding the base and derived classes. -/
def envC5 : Env := [schemaBase, schemaDerived]

/-- C5 counterexample: `Base` and `Derived` are different schemas, yet
a `Base` instance compares equal to a `Derived` instance whose shared
field matches (`Bitfield.__eq__` only checks
`isinstance(other, self.__class__)` and the left operand's fields),
while the opposite direction compares false.  The claim states that
equality across different schemas is false in both directions. -/
theorem c5_subclass_counterexample :
    schemaBase.name ≠ schemaDerived.name ∧
    valueEqF envC5 3 (.vRecord "Base" [("a", .vInt 1)] .vNone)
      (.vRecord "Derived" [("a", .vInt 1), ("b", .vInt 2)] .vNone) = true ∧
    valueEqF envC5 3 (.vRecord "Derived" [("a", .vInt 1), ("b", .vInt 2)] .vNone)
      (.vRecord "Base" [("a", .vInt 1)] .vNone) = false := by
  exact ⟨by decide, rfl, rfl⟩

theorem lookup_pair_eq_true (env : Env) (f : Nat) (o1 o2 : Option Value) :
    (match o1, o2 with
      | some va, some vb => valueEqF env f va vb
      | _, _ => false) = true ↔
    ∃ va vb, o1 = some va ∧ o2 = some vb ∧ valueEqF env f va vb = true := by
  cases o1 <;> cases o2 <;> simp

/-- C5 (amended): record equality is per-field over the left operand's
declared fields, gated by an `isinstance` check: when the right
operand's class is the left's class or inherits from it, the comparison
is true exactly when every field declared by the left class compares
equal on both instances; when the right operand's class neither is nor
inherits from the left's, the comparison is false (so two instances of
unrelated schemas are unequal in both directions, but a base-class
instance may compare equal to a derived-class instance while the
reverse comparison is false). -/
theorem c5_structural_equality :
    (∀ (env : Env) (f : Nat) (cls cls2 : String) (a b : AttrList)
        (ca cb : Value) (sch : Schema),
      isInstanceOf env cls2 cls = true →
      lookupSchema env cls = some sch →
      (valueEqF env (f + 1) (.vRecord cls a ca) (.vRecord cls2 b cb) = true ↔
        ∀ p ∈ sch.fields, ∃ va vb,
          a.lookup p.1 = some va ∧ b.lookup p.1 = some vb ∧
          valueEqF env f va vb = true)) ∧
    (∀ (env : Env) (f : Nat) (cls cls2 : String) (a b : AttrList)
        (ca cb : Value),
      isInstanceOf env cls2 cls = false →
      valueEqF env f (.vRecord cls a ca) (.vRecord cls2 b cb) = false) := by
  constructor
  · intro env f cls cls2 a b ca cb sch hinst hsch
    simp only [valueEqF, hinst, hsch, Bool.true_and, List.all_eq_true]
    constructor
    · intro h p hp
      exact (lookup_pair_eq_true env f _ _).mp (h p hp)
    · intro h p hp
      exact (lookup_pair_eq_true env f _ _).mpr (h p hp)
  · intro env f cls cls2 a b ca cb hinst
    match f with
    | 0 => rfl
    | f + 1 => simp only [valueEqF, hinst, Bool.false_and]

/-- C5 witness: the amended equality evaluated concretely — two equal
`Base` instances compare equal via the per-field criterion, and a
`Base` instance compares unequal to an instance of an unrelated
schema in both directions. -/
theorem c5_structural_equality_witness :
    valueEqF envC5 3 (.vRecord "Base" [("a", .vInt 1)] .vNone)
      (.vRecord "Base" [("a", .vInt 1)] (.vInt 7)) = true ∧
    valueEqF envC5 3 (.vRecord "Base" [("a", .vInt 1)] .vNone)
      (.vRecord "Other" [("a", .vInt 1)] .vNone) = false ∧
    valueEqF envC5 3 (.vRecord "Other" [("a", .vInt 1)] .vNone)
      (.vRecord "Base" [("a", .vInt 1)] .vNone) = false := by
  refine ⟨?_, ?_, ?_⟩
  · exact (c5_structural_equality.1 envC5 2 "Base" "Base"
      [("a", .vInt 1)] [("a", .vInt 1)] .vNone (.vInt 7) schemaBase
      (by decide) (by rfl)).mpr
      (by intro p hp; fin_cases hp; exact ⟨.vInt 1, .vInt 1, rfl, rfl, rfl⟩)
  · exact c5_structural_equality.2 envC5 3 "Base" "Other"
      [("a", .vInt 1)] [("a", .vInt 1)] .vNone .vNone (by decide)
  · exact c5_structural_equality.2 envC5 3 "Other" "Base"
      [("a", .vInt 1)] [("a", .vInt 1)] .vNone .vNone (by decide)

/-! ### Claim C9: the reorder involution -/

theorem prefixPerm_mem {P : List Nat} (h : PrefixPerm P) :
    ∀ j, j < P.length → j ∈ P := by
  intro j hj
  have hsub : P.toFinset ⊆ Finset.range P.length := by
    intro x hx
    exact Finset.mem_range.mpr (h.2 x (List.mem_toFinset.mp hx))
  have hcard : P.toFinset.card = P.length :=
    List.toFinset_card_of_nodup h.1
  have heq : P.toFinset = Finset.range P.length :=
    Finset.eq_of_subset_of_card_le hsub
      (by rw [hcard, Finset.card_range])
  have : j ∈ Finset.range P.length := Finset.mem_range.mpr hj
  rw [← heq] at this
  exact List.mem_toFinset.mp this

theorem reorder_length (B : List Bool) (P : List Nat) :
    (Bits.reorder B P).length = B.length := by
  simp [Bits.reorder]

theorem unreorder_length (B : List Bool) (P : List Nat) :
    (Bits.unreorder B P).length = B.length := by
  simp [Bits.unreorder]

theorem reorder_getElem (B : List Bool) (P : List Nat) (i : Nat)
    (h : i < (Bits.reorder B P).length) :
    (Bits.reorder B P)[i] =
      if i < P.length then B.getD (P.getD i 0) false else B.getD i false := by
  simp [Bits.reorder]

theorem unreorder_getElem (B : List Bool) (P : List Nat) (i : Nat)
    (h : i < (Bits.unreorder B P).length) :
    (Bits.unreorder B P)[i] =
      if i < P.length then B.getD (List.indexOf i P) false
      else B.getD i false := by
  simp [Bits.unreorder]

theorem reorder_unreorder (B : List Bool) (P : List Nat)
    (hP : PrefixPerm P) (hle : P.length ≤ B.length) :
    Bits.reorder (Bits.unreorder B P) P = B := by
  apply List.ext_getElem
    (by rw [reorder_length, unreorder_length])
  intro i h1 h2
  have hiB : i < B.length := h2
  have hC : (Bits.unreorder B P).length = B.length := unreorder_length B P
  rw [reorder_getElem]
  by_cases hi : i < P.length
  · rw [if_pos hi]
    have hPi : P.getD i 0 = P[i] := List.getD_eq_getElem P 0 hi
    have hjP : P[i] < P.length := hP.2 _ (List.getElem_mem hi)
    have hjB : P[i] < (Bits.unreorder B P).length := by omega
    rw [hPi, List.getD_eq_getElem _ _ hjB, unreorder_getElem _ _ _ hjB,
      if_pos hjP, List.indexOf_getElem hP.1 i hi,
      List.getD_eq_getElem B false hiB]
  · rw [if_neg hi]
    have hiC : i < (Bits.unreorder B P).length := by omega
    rw [List.getD_eq_getElem _ _ hiC, unreorder_getElem _ _ _ hiC,
      if_neg hi, List.getD_eq_getElem B false hiB]

theorem unreorder_reorder (B : List Bool) (P : List Nat)
    (hP : PrefixPerm P) (hle : P.length ≤ B.length) :
    Bits.unreorder (Bits.reorder B P) P = B := by
  apply List.ext_getElem
    (by rw [unreorder_length, reorder_length])
  intro i h1 h2
  have hiB : i < B.length := h2
  rw [unreorder_getElem]
  by_cases hi : i < P.length
  · rw [if_pos hi]
    have hmem : i ∈ P := prefixPerm_mem hP i hi
    have hidx : List.indexOf i P < P.length :=
      List.indexOf_lt_length.mpr hmem
    have hidxC : List.indexOf i P < (Bits.reorder B P).length := by
      rw [reorder_length]; omega
    rw [List.getD_eq_getElem _ _ hidxC, reorder_getElem _ _ _ hidxC,
      if_pos hidx, List.getD_eq_getElem P 0 hidx,
      List.getElem_indexOf hidx, List.getD_eq_getElem B false hiB]
  · rw [if_neg hi]
    have hiC : i < (Bits.reorder B P).length := by
      rw [reorder_length]; omega
    rw [List.getD_eq_getElem _ _ hiC, reorder_getElem _ _ _ hiC,
      if_neg hi, List.getD_eq_getElem B false hiB]

/-- C9: for every buffer `B` and sequence `P` whose prefix is a
permutation of `0 .. len(P) - 1` with `len(P) ≤ len(B)`, `reorder` and
`unreorder` are mutually inverse and both preserve the length. -/
theorem c9_reorder_involution :
    ∀ (B : List Bool) (P : List Nat), PrefixPerm P → P.length ≤ B.length →
      Bits.reorder (Bits.unreorder B P) P = B ∧
      Bits.unreorder (Bits.reorder B P) P = B ∧
      (Bits.reorder B P).length = B.length ∧
      (Bits.unreorder B P).length = B.length := by
  intro B P hP hle
  exact ⟨reorder_unreorder B P hP hle, unreorder_reorder B P hP hle,
    reorder_length B P, unreorder_length B P⟩

/-- C9 witness: the involution evaluated at an 8-bit buffer and the
permutation prefix `[2, 0, 1]`. -/
theorem c9_reorder_involution_witness :
    PrefixPerm [2, 0, 1] ∧
    Bits.reorder
      (Bits.unreorder
        [true, true, false, false, true, false, true, true] [2, 0, 1])
      [2, 0, 1] = [true, true, false, false, true, false, true, true] ∧
    Bits.unreorder
      (Bits.reorder
        [true, true, false, false, true, false, true, true] [2, 0, 1])
      [2, 0, 1] = [true, true, false, false, true, false, true, true] := by
  have h := c9_reorder_involution
    [true, true, false, false, true, false, true, true] [2, 0, 1]
    (by decide) (by decide)
  exact ⟨by decide, h.1, h.2.1⟩

/-! ### Claim C1: the value round trip -/

/-- An integer-view mapper whose `back` is not inverted by `forward`
(it writes `255 - y` instead of `y`): a legal `ValueMapper`, since the
mapper protocol carries no laws. -/
def swapMap : BFType :=
  bf_map (bf_bits 8 none) fwdBitsAsInt
    (fun v => match v with
      | .vInt y =>
          match bits_from_int (255 - y) 8 with
          | .error e => .error e
          | .ok b => .ok (.vBits b)
      | v => .error ⟨.typeError, "expected int, got " ++ reprV v⟩) none

/-- A dynamic dispatcher that branches on whether the field `b` is
already visible on its argument — false on the decode-time sibling
view (the field is being decoded), true on the encode-time instance
view. -/
def fnBad : AttrList → Disguised := fun proxy =>
  if (proxy.lookup "b").isSome then .dTy swapMap else .dTy (bf_int 8 none)

/-- A schema `{a: int(8), b: dyn(fnBad)}`. -/
def schemaD : Schema :=
  ⟨"D", [("a", bf_int 8 none), ("b", .bfDynSelf fnBad none)], [], []⟩

/-- An environment holding only `schemaD`. -/
def envD : Env := [schemaD]

/-- The instance `{a: 1, b: 5}` of `schemaD`. -/
def xD : Value := .vRecord "D" [("a", .vInt 1), ("b", .vInt 5)] .vNone

/-- C1 counterexample: for the schema `{a: int(8), b: dyn(fnBad)}` the
instance `{a: 1, b: 5}` is legal — every field encodes successfully —
yet decoding the encoding succeeds and yields `{a: 1, b: 250}`, which
is not equal to the instance: the dispatcher resolved to different
descriptors on the encode-time instance view and the decode-time
sibling view.  The claim asserts the round trip for every schema and
every encodable instance. -/
theorem c1_roundtrip_counterexample :
    to_bits envD 6 xD .vNone =
      .ok ([false, false, false, false, false, false, false, true,
        true, true, true, true, true, false, true, false],
        .vRecord "D" [("a", .vInt 1), ("b", .vInt 5)] .vNone) ∧
    from_bits envD 6 schemaD
        [false, false, false, false, false, false, false, true,
          true, true, true, true, true, false, true, false] .vNone =
      .ok (.vRecord "D" [("a", .vInt 1), ("b", .vInt 250)] .vNone) ∧
    valueEqF envD 6
      (.vRecord "D" [("a", .vInt 1), ("b", .vInt 250)] .vNone) xD = false ∧
    valueEqF envD 6 xD
      (.vRecord "D" [("a", .vInt 1), ("b", .vInt 250)] .vNone) = false := by
  exact ⟨rfl, rfl, rfl, rfl⟩

/-- A value compares equal to itself under the codec's equality from
some fuel onwards (Python `x == x`; not automatic for arbitrary mapper
outputs, so it appears as a mapper obligation below). -/
def SelfEqAt (env : Env) (v : Value) : Prop :=
  ∃ f0, ∀ g, f0 ≤ g → valueEqF env g v v = true

/-- The sibling views a field at position `i` of a record with
attributes `attrs` is actually consulted with: at decode time, the
partial proxy holding the context entry followed by the already-decoded
fields `0 .. i-1`; at encode time, the full instance view.  The context
entry's value is arbitrary. -/
def PView (attrs : AttrList) (i : Nat) (proxy : AttrList) : Prop :=
  (∃ c, proxy = ("bitfield_context", c) :: attrs.take i) ∨
  (∃ c, proxy = attrs ++ [("bitfield_context", c)])

/-- Round-trip coherence of one descriptor/value pair, the hypothesis
under which the round trip is provable.  `P` collects the sibling views
this node may be consulted with (for a record field: its decode-time
prefix views and the encode-time instance view), `T` is the exact
number of bits that follow this node's encoding inside the enclosing
record's buffer, and the final index is the node's exact encoded bit
length.  The constructors rule exactly the points at which the engine
trusts user-supplied ingredients: a `Map` node's mapper must send the
value back exactly and its value must be self-equal; a dynamic
dispatcher must resolve, on the views in `P` - and, for `DynSelfN`, at
the remaining-bit count this instance actually presents - to one same
coherent descriptor (on the `DynSelfN` encode side the value itself
must normalise to that descriptor; input-dependent dispatchers such as
branching on a previously decoded discriminator field or on the
remaining count are admitted, since `P` and the count are those of this
very instance); a nested record value must be of the descriptor's
class with canonical attributes, distinct field names not named
`bitfield_context`, a valid reorder prefix not exceeding the nested
width, and a fresh (`None`) context, each field being coherent for its
own prefix views and suffix count. -/
inductive Good (env : Env) :
    (AttrList → Prop) → Nat → BFType → Value → Nat → Prop where
  | bits {P : AttrList → Prop} {T : Nat} {n : Nat} {d : Option Value}
      {b : List Bool} :
      b.length = n → Good env P T (.bfBits n d) (.vBits b) n
  | list {P : AttrList → Prop} {T : Nat} {inner : BFType} {n : Nat}
      {d : Option Value} {xs : List Value} {lens : List Nat} :
      xs.length = n → lens.length = n →
      (∀ i (h : i < xs.length) (h2 : i < lens.length),
        Good env P ((lens.drop (i + 1)).sum + T) inner
          (xs.get ⟨i, h⟩) (lens.get ⟨i, h2⟩)) →
      Good env P T (.bfList inner n d) (.vList xs) lens.sum
  | map {P : AttrList → Prop} {T : Nat}
      {fwd bck : Value → Except Err Value} {inner : BFType}
      {d : Option Value} {v w : Value} {L : Nat} :
      bck v = .ok w → fwd w = .ok v → SelfEqAt env v →
      Good env P T inner w L → Good env P T (.bfMap fwd bck inner d) v L
  | lit {P : AttrList → Prop} {T : Nat} {inner : BFType} {dflt v : Value}
      {L : Nat} :
      Good env P T inner v L → Good env P T (.bfLit inner dflt) v L
  | none {P : AttrList → Prop} {T : Nat} {d : Option Value} :
      Good env P T (.bfNone d) .vNone 0
  | dyn {P : AttrList → Prop} {T : Nat} {fn : AttrList → Disguised}
      {d : Option Value} {F2 : BFType} {v : Value} {L : Nat} :
      (∀ proxy, P proxy → undisguise env (fn proxy) = .ok F2) →
      Good env P T F2 v L → Good env P T (.bfDynSelf fn d) v L
  | dynN {P : AttrList → Prop} {T : Nat} {fn : AttrList → Nat → Disguised}
      {d : Option Value} {F2 : BFType} {v : Value} {L : Nat} :
      (∀ proxy, P proxy → undisguise env (fn proxy (L + T)) = .ok F2) →
      (match v with
        | .vRecord cls _ _ => undisguise env (.dCls cls) = .ok F2
        | .vStr s => undisguise env (.dStr s) = .ok F2
        | .vBytes bs => undisguise env (.dBytes bs) = .ok F2
        | .vNone => undisguise env .dNone = .ok F2
        | _ => False) →
      Good env P T F2 v L → Good env P T (.bfDynSelfN fn d) v L
  | record {P : AttrList → Prop} {T : Nat} {cls : String} {n : Nat}
      {d : Option Value} {attrs : AttrList} {sch : Schema}
      {lens : List Nat} :
      lookupSchema env cls = some sch →
      attrs.map Prod.fst = sch.fields.map Prod.fst →
      (sch.fields.map Prod.fst).Nodup →
      "bitfield_context" ∉ sch.fields.map Prod.fst →
      lens.length = sch.fields.length →
      (∀ i (h : i < sch.fields.length) (h2 : i < attrs.length)
          (h3 : i < lens.length),
        Good env (PView attrs i) ((lens.drop (i + 1)).sum)
          (sch.fields.get ⟨i, h⟩).2 (attrs.get ⟨i, h2⟩).2
          (lens.get ⟨i, h3⟩)) →
      PrefixPerm sch.reorder →
      sch.reorder.length ≤ n →
      Good env P T (.bfBitfield cls n d) (.vRecord cls attrs .vNone) n

/-- The round-trip property of one descriptor/value pair: whenever the
encode traversal, consulted with a view in `P`, emits a bit string, it
has exactly the stated length, and the decode traversal at the same
fuel - started anywhere in a larger buffer whose unread part is that
bit string followed by exactly `T` further bits, with any view in `P`
and any context - returns exactly the value and advances the cursor by
exactly that length. -/
def RT (env : Env) (P : AttrList → Prop) (T : Nat) (F : BFType)
    (v : Value) (L : Nat) : Prop :=
  ∀ (f : Nat) (pv : AttrList) (ctx : Value) (bits : List Bool),
    P pv →
    bftype_to_bits env f F v pv ctx = .ok bits →
    bits.length = L ∧
    ∀ (buf : List Bool) (off : Nat) (tail : List Bool)
      (proxy : AttrList) (ctx2 : Value),
      P proxy → tail.length = T →
      buf.drop off = bits ++ tail → off ≤ buf.length →
      bftype_from_bitstream env f F ⟨buf, off⟩ proxy ctx2 =
        .ok (v, ⟨buf, off + L⟩)

theorem lookup_cons_ne {k n : String} {w : Value} {rest : AttrList}
    (h : n ≠ k) : List.lookup n ((k, w) :: rest) = List.lookup n rest := by
  simp [List.lookup, beq_eq_false_iff_ne.mpr h]

theorem lookup_aligned :
    ∀ (attrs : AttrList) (names : List String),
      attrs.map Prod.fst = names → names.Nodup →
      ∀ i (hi : i < names.length) (hi2 : i < attrs.length),
        List.lookup (names.get ⟨i, hi⟩) attrs = some (attrs.get ⟨i, hi2⟩).2 := by
  intro attrs
  induction attrs with
  | nil =>
      intro names h _ i hi hi2
      simp at hi2
  | cons p rest ih =>
      intro names h hnd i hi hi2
      obtain ⟨k, x⟩ := p
      cases names with
      | nil => simp at h
      | cons nh nrest =>
          have h1 : k = nh ∧ rest.map Prod.fst = nrest := by simpa using h
          obtain ⟨hk, hmap⟩ := h1
          subst hk
          match i with
          | 0 => simp [List.lookup]
          | i + 1 =>
              have hi3 : i < nrest.length := by simpa using hi
              have hi4 : i < rest.length := by simpa using hi2
              have hne : nrest.get ⟨i, hi3⟩ ≠ k := by
                intro hEq
                exact (List.nodup_cons.mp hnd).1 (hEq ▸ List.get_mem nrest i hi3)
              show List.lookup (nrest.get ⟨i, hi3⟩) ((k, x) :: rest) = _
              rw [lookup_cons_ne hne]
              exact ih nrest hmap (List.nodup_cons.mp hnd).2 i hi3 hi4

theorem init_go_exact :
    ∀ (fields : List (String × BFType)) (attrs : AttrList) (kwargs : AttrList),
      attrs.map Prod.fst = fields.map Prod.fst →
      (∀ i (hi : i < fields.length) (hi2 : i < attrs.length),
        List.lookup (fields.get ⟨i, hi⟩).1 kwargs =
          some (attrs.get ⟨i, hi2⟩).2) →
      bitfield_init.go kwargs fields = .ok attrs := by
  intro fields
  induction fields with
  | nil =>
      intro attrs kwargs h _
      rw [List.map_eq_nil_iff.mp h]
      rfl
  | cons p rest ih =>
      intro attrs kwargs h hlk
      obtain ⟨name, F⟩ := p
      cases attrs with
      | nil => simp at h
      | cons q qrest =>
          obtain ⟨qn, qv⟩ := q
          have h1 : qn = name ∧ qrest.map Prod.fst = rest.map Prod.fst := by
            simpa using h
          obtain ⟨hq, hmap⟩ := h1
          subst hq
          have hk0 : List.lookup qn kwargs = some qv :=
            hlk 0 (by simp) (by simp)
          have hrest : bitfield_init.go kwargs rest = .ok qrest :=
            ih qrest kwargs hmap (fun i hi hi2 =>
              hlk (i + 1) (by simpa using Nat.succ_lt_succ hi)
                (by simpa using Nat.succ_lt_succ hi2))
          rw [bitfield_init.go, hk0, hrest]

theorem items_rt (env : Env) (inner : BFType) (P : AttrList → Prop)
    (T : Nat) :
    ∀ (xs : List Value) (lens : List Nat),
      lens.length = xs.length →
      (∀ i (h : i < xs.length) (h2 : i < lens.length),
        RT env P ((lens.drop (i + 1)).sum + T) inner (xs.get ⟨i, h⟩)
          (lens.get ⟨i, h2⟩)) →
      ∀ (f : Nat) (pv : AttrList) (ctx : Value) (bits : List Bool),
        P pv →
        encode_items (fun x => bftype_to_bits env f inner x pv ctx) xs =
          .ok bits →
        bits.length = lens.sum ∧
        ∀ (buf : List Bool) (off : Nat) (tail : List Bool)
          (proxy : AttrList) (ctx2 : Value),
          P proxy → tail.length = T →
          buf.drop off = bits ++ tail → off ≤ buf.length →
          decode_list
              (fun s2 => bftype_from_bitstream env f inner s2 proxy ctx2)
              xs.length ⟨buf, off⟩ = .ok (xs, ⟨buf, off + lens.sum⟩) := by
  intro xs
  induction xs with
  | nil =>
      intro lens hlens _ f pv ctx bits hPpv henc
      cases henc
      have hl0 : lens = [] := List.length_eq_zero.mp (by simpa using hlens)
      subst hl0
      refine ⟨by simp, ?_⟩
      intro buf off tail proxy ctx2 _ _ _ _
      simp [decode_list]
  | cons x rest ih =>
      intro lens hlens hAll f pv ctx bits hPpv henc
      cases lens with
      | nil => simp at hlens
      | cons l0 lrest =>
          rw [encode_items] at henc
          cases h1 : bftype_to_bits env f inner x pv ctx with
          | error e => rw [h1] at henc; exact absurd henc (by simp)
          | ok b1 =>
              rw [h1] at henc
              dsimp only at henc
              cases h2 : encode_items
                  (fun x => bftype_to_bits env f inner x pv ctx) rest with
              | error e => rw [h2] at henc; exact absurd henc (by simp)
              | ok b2 =>
                  rw [h2] at henc
                  dsimp only at henc
                  cases henc
                  have hx : RT env P (lrest.sum + T) inner x l0 := by
                    have := hAll 0 (by simp) (by simp)
                    simpa using this
                  obtain ⟨hb1len, hdec1⟩ := hx f pv ctx b1 hPpv h1
                  have ihAll : ∀ i (h : i < rest.length)
                      (h2 : i < lrest.length),
                      RT env P ((lrest.drop (i + 1)).sum + T) inner
                        (rest.get ⟨i, h⟩) (lrest.get ⟨i, h2⟩) := by
                    intro i h h2
                    have := hAll (i + 1) (by simpa using Nat.succ_lt_succ h)
                      (by simpa using Nat.succ_lt_succ h2)
                    simpa using this
                  obtain ⟨hb2len, hdec2⟩ := ih lrest (by simpa using hlens)
                    ihAll f pv ctx b2 hPpv h2
                  refine ⟨by simp [hb1len, hb2len], ?_⟩
                  intro buf off tail proxy ctx2 hPproxy htail hdrop hoff
                  have hlenbuf : (buf.drop off).length = buf.length - off :=
                    List.length_drop off buf
                  rw [hdrop] at hlenbuf
                  simp only [List.length_append] at hlenbuf
                  have hd1 := hdec1 buf off (b2 ++ tail) proxy ctx2 hPproxy
                    (by simp [hb2len, htail])
                    (by rw [hdrop, List.append_assoc]) hoff
                  have hdrop2 : buf.drop (off + b1.length) = b2 ++ tail := by
                    rw [← List.drop_drop, hdrop, List.append_assoc,
                      List.drop_left]
                  have hd2 := hdec2 buf (off + b1.length) tail proxy ctx2
                    hPproxy htail hdrop2 (by omega)
                  rw [hb1len] at hd2
                  show decode_list _ (rest.length + 1) _ = _
                  rw [decode_list, hd1]
                  dsimp only
                  rw [hd2]
                  simp [List.sum_cons, Nat.add_assoc]

theorem fields_rt (env : Env) (cls : String) (fullAttrs : AttrList) :
    ∀ (fields : List (String × BFType)) (attrs : AttrList)
      (lens : List Nat) (j : Nat),
      attrs = fullAttrs.drop j →
      attrs.map Prod.fst = fields.map Prod.fst →
      lens.length = fields.length →
      (∀ i (hi : i < fields.length) (hi2 : i < attrs.length),
        List.lookup (fields.get ⟨i, hi⟩).1 fullAttrs =
          some (attrs.get ⟨i, hi2⟩).2) →
      (∀ i (hi : i < fields.length) (hi2 : i < attrs.length)
          (hi3 : i < lens.length),
        RT env (PView fullAttrs (j + i)) ((lens.drop (i + 1)).sum)
          (fields.get ⟨i, hi⟩).2 (attrs.get ⟨i, hi2⟩).2
          (lens.get ⟨i, hi3⟩)) →
      ∀ (f : Nat) (ctxE pvc : Value) (bits : List Bool),
        encode_fields cls
            (fun F x pv2 => bftype_to_bits env f F x pv2 ctxE)
            fields fullAttrs (fullAttrs ++ [("bitfield_context", pvc)]) =
          .ok bits →
        bits.length = lens.sum ∧
        ∀ (buf : List Bool) (off : Nat) (ctx2 : Value),
          buf.drop off = bits → off ≤ buf.length →
          decode_fields cls
              (fun F s2 p2 => bftype_from_bitstream env f F s2 p2 ctx2)
              fields ⟨buf, off⟩
              (("bitfield_context", ctx2) :: fullAttrs.take j) =
            .ok ((("bitfield_context", ctx2) :: fullAttrs.take j) ++ attrs,
              ⟨buf, off + lens.sum⟩) := by
  intro fields
  induction fields with
  | nil =>
      intro attrs lens j hjdrop h hlens _ _ f ctxE pvc bits henc
      have hattrs : attrs = [] := List.map_eq_nil_iff.mp (by rw [h]; rfl)
      subst hattrs
      have hl0 : lens = [] := List.length_eq_zero.mp (by simpa using hlens)
      subst hl0
      cases henc
      refine ⟨by simp, ?_⟩
      intro buf off ctx2 hdrop hoff
      simp [decode_fields]
  | cons p rest ihf =>
      intro attrs lens j hjdrop h hlens hlk hrt f ctxE pvc bits henc
      obtain ⟨name, F⟩ := p
      cases attrs with
      | nil => simp at h
      | cons q qrest =>
          obtain ⟨qn, qv⟩ := q
          have h1 : qn = name ∧ qrest.map Prod.fst = rest.map Prod.fst := by
            simpa using h
          obtain ⟨hq, hmap⟩ := h1
          subst hq
          cases lens with
          | nil => simp at hlens
          | cons l0 lrest =>
              have hjlt : j < fullAttrs.length := by
                by_contra hge
                have hnil : fullAttrs.drop j = [] :=
                  List.drop_eq_nil_iff.mpr (by omega)
                rw [hnil] at hjdrop
                simp at hjdrop
              have hcons : (qn, qv) :: qrest =
                  fullAttrs[j] :: fullAttrs.drop (j + 1) := by
                rw [← List.drop_eq_getElem_cons hjlt, ← hjdrop]
              have hgetj : fullAttrs[j] = (qn, qv) := by
                have := (List.cons.injEq _ _ _ _).mp hcons
                exact this.1.symm
              have hdropj : qrest = fullAttrs.drop (j + 1) := by
                have := (List.cons.injEq _ _ _ _).mp hcons
                exact this.2
              have htakestep : fullAttrs.take (j + 1) =
                  fullAttrs.take j ++ [(qn, qv)] := by
                rw [List.take_succ, List.getElem?_eq_getElem hjlt, hgetj]
                rfl
              rw [encode_fields] at henc
              have hk0 : List.lookup qn fullAttrs = some qv :=
                hlk 0 (by simp) (by simp)
              rw [hk0] at henc
              dsimp only at henc
              cases h1e : bftype_to_bits env f F qv
                  (fullAttrs ++ [("bitfield_context", pvc)]) ctxE with
              | error e => rw [h1e] at henc; exact absurd henc (by simp)
              | ok b1 =>
                  rw [h1e] at henc
                  dsimp only at henc
                  cases h2e : encode_fields cls
                      (fun F x pv2 => bftype_to_bits env f F x pv2 ctxE)
                      rest fullAttrs
                      (fullAttrs ++ [("bitfield_context", pvc)]) with
                  | error e => rw [h2e] at henc; exact absurd henc (by simp)
                  | ok b2 =>
                      rw [h2e] at henc
                      dsimp only at henc
                      cases henc
                      have hx : RT env (PView fullAttrs j) lrest.sum F qv
                          l0 := by
                        have := hrt 0 (by simp) (by simp) (by simp)
                        simpa using this
                      obtain ⟨hb1len, hdec1⟩ := hx f
                        (fullAttrs ++ [("bitfield_context", pvc)]) ctxE b1
                        (Or.inr ⟨pvc, rfl⟩) h1e
                      have ihlk : ∀ i (hi : i < rest.length)
                          (hi2 : i < qrest.length),
                          List.lookup (rest.get ⟨i, hi⟩).1 fullAttrs =
                            some (qrest.get ⟨i, hi2⟩).2 := by
                        intro i hi hi2
                        have := hlk (i + 1)
                          (by simpa using Nat.succ_lt_succ hi)
                          (by simpa using Nat.succ_lt_succ hi2)
                        simpa using this
                      have ihrt : ∀ i (hi : i < rest.length)
                          (hi2 : i < qrest.length) (hi3 : i < lrest.length),
                          RT env (PView fullAttrs (j + 1 + i))
                            ((lrest.drop (i + 1)).sum)
                            (rest.get ⟨i, hi⟩).2 (qrest.get ⟨i, hi2⟩).2
                            (lrest.get ⟨i, hi3⟩) := by
                        intro i hi hi2 hi3
                        have hthis := hrt (i + 1)
                          (by simpa using Nat.succ_lt_succ hi)
                          (by simpa using Nat.succ_lt_succ hi2)
                          (by simpa using Nat.succ_lt_succ hi3)
                        have hidx : j + (i + 1) = j + 1 + i := by omega
                        rw [hidx] at hthis
                        simpa using hthis
                      obtain ⟨hb2len, hdec2⟩ := ihf qrest lrest (j + 1)
                        hdropj hmap (by simpa using hlens) ihlk ihrt
                        f ctxE pvc b2 h2e
                      refine ⟨by simp [hb1len, hb2len], ?_⟩
                      intro buf off ctx2 hdrop hoff
                      have hlenbuf : (buf.drop off).length =
                          buf.length - off := List.length_drop off buf
                      rw [hdrop] at hlenbuf
                      simp only [List.length_append] at hlenbuf
                      have hd1 := hdec1 buf off b2
                        (("bitfield_context", ctx2) :: fullAttrs.take j)
                        ctx2 (Or.inl ⟨ctx2, rfl⟩) hb2len hdrop hoff
                      have hdrop2 : buf.drop (off + b1.length) = b2 := by
                        rw [← List.drop_drop, hdrop, List.drop_left]
                      have hd2 := hdec2 buf (off + b1.length) ctx2 hdrop2
                        (by omega)
                      rw [hb1len] at hd2
                      rw [decode_fields, hd1]
                      dsimp only
                      have hproxystep :
                          (("bitfield_context", ctx2) :: fullAttrs.take j) ++
                            [(qn, qv)] =
                          ("bitfield_context", ctx2) ::
                            fullAttrs.take (j + 1) := by
                        simp [htakestep]
                      rw [hproxystep, hd2]
                      simp [htakestep, List.sum_cons, Nat.add_assoc]

theorem lookupSchema_name {env : Env} {cls : String} {sch : Schema}
    (h : lookupSchema env cls = some sch) : sch.name = cls := by
  have := List.find?_some h
  exact eq_of_beq (by simpa using this)

theorem take_of_drop {buf bits tail : List Bool} {off n : Nat}
    (hdrop : buf.drop off = bits ++ tail) (hoff : off ≤ buf.length)
    (hn : bits.length = n) :
    BitStream.take ⟨buf, off⟩ n = .ok (bits, ⟨buf, off + n⟩) := by
  have hlen : (buf.drop off).length = buf.length - off :=
    List.length_drop off buf
  rw [hdrop] at hlen
  simp only [List.length_append] at hlen
  rw [BitStream.take]
  dsimp only
  rw [if_pos (by omega), hdrop, ← hn, List.take_left]

theorem good_rt (env : Env) {P : AttrList → Prop} {T : Nat}
    {F : BFType} {v : Value} {L : Nat}
    (h : Good env P T F v L) : RT env P T F v L := by
  induction h with
  | @bits P T n d b hlen =>
      intro f pv ctx bits hPpv henc
      cases f with
      | zero => simp [bftype_to_bits] at henc
      | succ f =>
          simp only [bftype_to_bits, if_neg (by omega : ¬ b.length ≠ n)]
            at henc
          cases henc
          refine ⟨hlen, ?_⟩
          intro buf off tail proxy ctx2 hPproxy htail hdrop hoff
          simp only [bftype_from_bitstream]
          rw [take_of_drop hdrop hoff hlen]
  | @list P T inner n d xs lens hxslen hlenslen hAll ih =>
      intro f pv ctx bits hPpv henc
      cases f with
      | zero => simp [bftype_to_bits] at henc
      | succ f =>
          simp only [bftype_to_bits, if_neg (by omega : ¬ xs.length ≠ n)]
            at henc
          obtain ⟨hblen, hdec⟩ := items_rt env inner P T xs lens
            (by omega) ih f pv ctx bits hPpv henc
          refine ⟨hblen, ?_⟩
          intro buf off tail proxy ctx2 hPproxy htail hdrop hoff
          have hd := hdec buf off tail proxy ctx2 hPproxy htail hdrop hoff
          simp only [bftype_from_bitstream, ← hxslen, hd]
  | @map P T fwd bck inner d v w L2 hbck hfwd hself hinner ih =>
      intro f pv ctx bits hPpv henc
      cases f with
      | zero => simp [bftype_to_bits] at henc
      | succ f =>
          simp only [bftype_to_bits, hbck] at henc
          obtain ⟨hblen, hdec⟩ := ih f pv ctx bits hPpv henc
          refine ⟨hblen, ?_⟩
          intro buf off tail proxy ctx2 hPproxy htail hdrop hoff
          have hd := hdec buf off tail proxy ctx2 hPproxy htail hdrop hoff
          simp only [bftype_from_bitstream, hd, hfwd]
  | @lit P T inner dflt v L2 hinner ih =>
      intro f pv ctx bits hPpv henc
      cases f with
      | zero => simp [bftype_to_bits] at henc
      | succ f =>
          simp only [bftype_to_bits] at henc
          cases hEq : valueEqF env (f + 1) v dflt with
          | false =>
              rw [if_neg (by simp [hEq])] at henc
              exact absurd henc (by simp)
          | true =>
              rw [if_pos (by simp [hEq])] at henc
              obtain ⟨hblen, hdec⟩ := ih f pv ctx bits hPpv henc
              refine ⟨hblen, ?_⟩
              intro buf off tail proxy ctx2 hPproxy htail hdrop hoff
              have hd := hdec buf off tail proxy ctx2 hPproxy htail
                hdrop hoff
              simp only [bftype_from_bitstream, hd, hEq, if_pos]
  | @none P T d =>
      intro f pv ctx bits hPpv henc
      cases f with
      | zero => simp [bftype_to_bits] at henc
      | succ f =>
          simp only [bftype_to_bits] at henc
          cases henc
          refine ⟨rfl, ?_⟩
          intro buf off tail proxy ctx2 hPproxy htail hdrop hoff
          simp [bftype_from_bitstream]
  | @dyn P T fn d F2 v L2 hres hinner ih =>
      intro f pv ctx bits hPpv henc
      cases f with
      | zero => simp [bftype_to_bits] at henc
      | succ f =>
          simp only [bftype_to_bits, hres pv hPpv] at henc
          obtain ⟨hblen, hdec⟩ := ih f pv ctx bits hPpv henc
          refine ⟨hblen, ?_⟩
          intro buf off tail proxy ctx2 hPproxy htail hdrop hoff
          have hd := hdec buf off tail proxy ctx2 hPproxy htail hdrop hoff
          simp only [bftype_from_bitstream, hres proxy hPproxy, hd]
  | @dynN P T fn d F2 v L2 hres hval hinner ih =>
      intro f pv ctx bits hPpv henc
      cases f with
      | zero => simp [bftype_to_bits] at henc
      | succ f =>
          have hstep : ∀ (henc2 : bftype_to_bits env f F2 v pv ctx =
              .ok bits),
              bits.length = L2 ∧
              ∀ (buf : List Bool) (off : Nat) (tail : List Bool)
                (proxy : AttrList) (ctx2 : Value),
                P proxy → tail.length = T →
                buf.drop off = bits ++ tail → off ≤ buf.length →
                bftype_from_bitstream env (f + 1) (.bfDynSelfN fn d)
                  ⟨buf, off⟩ proxy ctx2 = .ok (v, ⟨buf, off + L2⟩) := by
            intro henc2
            obtain ⟨hblen, hdec⟩ := ih f pv ctx bits hPpv henc2
            refine ⟨hblen, ?_⟩
            intro buf off tail proxy ctx2 hPproxy htail hdrop hoff
            have hlenbuf : (buf.drop off).length = buf.length - off :=
              List.length_drop off buf
            rw [hdrop] at hlenbuf
            simp only [List.length_append] at hlenbuf
            have hd := hdec buf off tail proxy ctx2 hPproxy htail hdrop hoff
            simp only [bftype_from_bitstream, BitStream.remaining]
            have hrem : buf.length - off = L2 + T := by omega
            rw [hrem, hres proxy hPproxy]
            exact hd
          cases v with
          | vRecord cls attrs c0 =>
              simp only [bftype_to_bits, hval] at henc
              exact hstep henc
          | vStr s =>
              simp only [bftype_to_bits, hval] at henc
              exact hstep henc
          | vBytes bs =>
              simp only [bftype_to_bits, hval] at henc
              exact hstep henc
          | vNone =>
              simp only [bftype_to_bits, hval] at henc
              exact hstep henc
          | vBits b => exact absurd hval (by simp)
          | vInt i => exact absurd hval (by simp)
          | vBool b => exact absurd hval (by simp)
          | vList xs => exact absurd hval (by simp)
  | @record P T cls n d attrs sch lens hsch hmapfst hnodup hbc hlenslen
      hAll hperm hrlen ih =>
      intro f pv ctx bits hPpv henc
      cases f with
      | zero => simp [bftype_to_bits] at henc
      | succ f =>
          simp only [bftype_to_bits, to_bits_g, hsch] at henc
          cases hfb : encode_fields cls
              (fun F2 x pv2 => bftype_to_bits env f F2 x pv2 ctx)
              sch.fields attrs (attrs ++ [("bitfield_context", ctx)]) with
          | error e => rw [hfb] at henc; exact absurd henc (by simp)
          | ok fieldbits =>
              rw [hfb] at henc
              dsimp only at henc
              by_cases hn :
                  (Bits.unreorder fieldbits sch.reorder).length ≠ n
              · rw [if_pos hn] at henc; exact absurd henc (by simp)
              · rw [if_neg hn] at henc
                cases henc
                push_neg at hn
                have hname : sch.name = cls := lookupSchema_name hsch
                have hfblen : fieldbits.length = n := by
                  rw [← unreorder_length fieldbits sch.reorder]; omega
                have hlkA := lookup_aligned attrs (sch.fields.map Prod.fst)
                  hmapfst hnodup
                have hlk2 : ∀ i (hi : i < sch.fields.length)
                    (hi2 : i < attrs.length),
                    List.lookup (sch.fields.get ⟨i, hi⟩).1 attrs =
                      some (attrs.get ⟨i, hi2⟩).2 := by
                  intro i hi hi2
                  have := hlkA i (by simpa using hi) hi2
                  simpa [List.get_map] using this
                have hreo := reorder_unreorder fieldbits sch.reorder hperm
                  (by omega)
                have ihshift : ∀ i (hi : i < sch.fields.length)
                    (hi2 : i < attrs.length) (hi3 : i < lens.length),
                    RT env (PView attrs (0 + i)) ((lens.drop (i + 1)).sum)
                      (sch.fields.get ⟨i, hi⟩).2 (attrs.get ⟨i, hi2⟩).2
                      (lens.get ⟨i, hi3⟩) := by
                  intro i hi hi2 hi3
                  rw [Nat.zero_add]
                  exact ih i hi hi2 hi3
                obtain ⟨hfbl, hdecf⟩ := fields_rt env cls attrs
                  sch.fields attrs lens 0 (by simp) hmapfst
                  (by omega) hlk2 ihshift f ctx ctx fieldbits hfb
                refine ⟨hn, ?_⟩
                intro buf off tail proxy ctx2 hPproxy htail hdrop hoff
                have hinit2 : bitfield_init sch
                    (("bitfield_context", ctx2) :: attrs) =
                    .ok (.vRecord cls attrs .vNone) := by
                  rw [bitfield_init]
                  have hgo := init_go_exact sch.fields attrs
                    (("bitfield_context", ctx2) :: attrs) hmapfst
                    (by
                      intro i hi hi2
                      have hne : (sch.fields.get ⟨i, hi⟩).1 ≠
                          "bitfield_context" := by
                        intro hEq
                        apply hbc
                        rw [← hEq]
                        exact List.mem_map_of_mem Prod.fst
                          (List.get_mem _ _ _)
                      rw [lookup_cons_ne hne]
                      exact hlk2 i hi hi2)
                  rw [hgo, hname]
                have hstream : BitStream.reorder
                    ⟨Bits.unreorder fieldbits sch.reorder, 0⟩ sch.reorder =
                    ⟨fieldbits, 0⟩ := by
                  rw [BitStream.reorder]
                  dsimp only
                  rw [hreo]
                have hd := hdecf fieldbits 0 ctx2 (by simp) (by omega)
                have hfb2 : from_bits_g
                    (fun F2 s3 p2 =>
                      bftype_from_bitstream env f F2 s3 p2 ctx2)
                    sch (Bits.unreorder fieldbits sch.reorder) ctx2 =
                    .ok (.vRecord cls attrs .vNone) := by
                  rw [from_bits_g, from_bitstream_g, hname, hstream]
                  simp only [List.take_zero, List.cons_append,
                    List.nil_append] at hd
                  rw [hd]
                  dsimp only
                  rw [hinit2]
                  dsimp only
                  rw [if_neg (by simp [BitStream.remaining, hfbl])]
                simp only [bftype_from_bitstream,
                  take_of_drop hdrop hoff
                    (by omega :
                      (Bits.unreorder fieldbits sch.reorder).length = n),
                  hsch, hfb2]

theorem valueEqF_ctx (env : Env) :
    ∀ (g : Nat) (cn : String) (a : AttrList) (cn2 : String) (b : AttrList)
      (c1 c2 c3 c4 : Value),
      valueEqF env g (.vRecord cn a c1) (.vRecord cn2 b c2) =
        valueEqF env g (.vRecord cn a c3) (.vRecord cn2 b c4) := by
  intro g cn a cn2 b c1 c2 c3 c4
  cases g <;> rfl

theorem selfeq_list_aux (env : Env) :
    ∀ (xs : List Value),
      (∀ i (h : i < xs.length), SelfEqAt env (xs.get ⟨i, h⟩)) →
      ∃ f0, ∀ g, f0 ≤ g → ∀ i (h : i < xs.length),
        valueEqF env g (xs.get ⟨i, h⟩) (xs.get ⟨i, h⟩) = true := by
  intro xs
  induction xs with
  | nil => intro _; exact ⟨0, fun g _ i h => by simp at h⟩
  | cons x rest ih =>
      intro hAll
      obtain ⟨fa, ha⟩ := hAll 0 (by simp)
      obtain ⟨fb, hb⟩ := ih (fun i h =>
        hAll (i + 1) (by simpa using Nat.succ_lt_succ h))
      refine ⟨max fa fb, fun g hg i h => ?_⟩
      match i with
      | 0 => exact ha g (le_trans (le_max_left fa fb) hg)
      | i + 1 =>
          exact hb g (le_trans (le_max_right fa fb) hg) i
            (by simpa using h)

theorem selfeq_attrs_aux (env : Env) :
    ∀ (attrs : AttrList),
      (∀ i (h : i < attrs.length), SelfEqAt env (attrs.get ⟨i, h⟩).2) →
      ∃ f0, ∀ g, f0 ≤ g → ∀ i (h : i < attrs.length),
        valueEqF env g (attrs.get ⟨i, h⟩).2 (attrs.get ⟨i, h⟩).2 = true := by
  intro attrs
  induction attrs with
  | nil => intro _; exact ⟨0, fun g _ i h => by simp at h⟩
  | cons x rest ih =>
      intro hAll
      obtain ⟨fa, ha⟩ := hAll 0 (by simp)
      obtain ⟨fb, hb⟩ := ih (fun i h =>
        hAll (i + 1) (by simpa using Nat.succ_lt_succ h))
      refine ⟨max fa fb, fun g hg i h => ?_⟩
      match i with
      | 0 => exact ha g (le_trans (le_max_left fa fb) hg)
      | i + 1 =>
          exact hb g (le_trans (le_max_right fa fb) hg) i
            (by simpa using h)

/-- Every `Good` value compares equal to itself from some fuel on. -/
theorem good_selfeq (env : Env) {P : AttrList → Prop} {T : Nat}
    {F : BFType} {v : Value} {L : Nat}
    (h : Good env P T F v L) : SelfEqAt env v := by
  induction h with
  | @bits P T n d b hlen =>
      exact ⟨1, fun g hg => by
        match g, hg with
        | g + 1, _ => simp [valueEqF]⟩
  | @list P T inner n d xs lens hxslen hlenslen hAll ih =>
      obtain ⟨f0, hf0⟩ := selfeq_list_aux env xs (fun i h => ih i h (by omega))
      refine ⟨f0 + 1, fun g hg => ?_⟩
      match g, hg with
      | g + 1, hg =>
          simp only [valueEqF, Bool.and_eq_true, List.all_eq_true]
          refine ⟨by simp, fun p hp => ?_⟩
          obtain ⟨⟨i, hi⟩, hget⟩ := List.mem_iff_get.mp hp
          have hzl : (xs.zip xs).length = xs.length := by simp
          have hix : i < xs.length := by omega
          have : (xs.zip xs).get ⟨i, hi⟩ =
              (xs.get ⟨i, hix⟩, xs.get ⟨i, hix⟩) := by
            simp [List.get_zip]
          rw [← hget, this]
          exact hf0 g (by omega) i hix
  | @map P T fwd bck inner d v w L2 hbck hfwd hself hinner ih => exact hself
  | @lit P T inner dflt v L2 hinner ih => exact ih
  | @none P T d =>
      exact ⟨1, fun g hg => by
        match g, hg with
        | g + 1, _ => simp [valueEqF]⟩
  | @dyn P T fn d F2 v L2 hres hinner ih => exact ih
  | @dynN P T fn d F2 v L2 hres hval hinner ih => exact ih
  | @record P T cls n d attrs sch lens hsch hmapfst hnodup hbc hlenslen
      hAll hperm hrlen ih =>
      have hlencd : attrs.length = sch.fields.length := by
        have := congrArg List.length hmapfst
        simpa using this
      obtain ⟨f0, hf0⟩ := selfeq_attrs_aux env attrs
        (fun i h => ih i (by omega) h (by omega))
      refine ⟨f0 + 1, fun g hg => ?_⟩
      match g, hg with
      | g + 1, hg =>
          simp only [valueEqF, isInstanceOf, hsch, Bool.and_eq_true,
            List.all_eq_true]
          refine ⟨by simp, fun p hp => ?_⟩
          obtain ⟨⟨i, hi⟩, hget⟩ := List.mem_iff_get.mp hp
          have hia : i < attrs.length := by omega
          have hlk := lookup_aligned attrs (sch.fields.map Prod.fst)
            hmapfst hnodup i (by simpa using hi) hia
          have hp1 : p.1 = (sch.fields.get ⟨i, hi⟩).1 := by
            rw [← hget]
          have hlk2 : List.lookup p.1 attrs =
              some (attrs.get ⟨i, hia⟩).2 := by
            rw [hp1]
            have : (sch.fields.map Prod.fst).get ⟨i, by simpa using hi⟩ =
                (sch.fields.get ⟨i, hi⟩).1 := by
              simp [List.get_map]
            rw [← this]
            exact hlk
          rw [hlk2]
          exact hf0 g (by omega) i hia

/-- C1 (amended): for every schema and instance whose user-supplied
ingredients are round-trip coherent for this very instance - mappers
invert exactly and yield self-equal values; each dynamic dispatcher
resolves, on the sibling views it is actually consulted with during
this instance's decode and encode (its field's decode-time prefix
views and the encode-time instance view, and for `DynSelfN` at the
remaining-bit count this instance actually presents), to one same
coherent descriptor, so that input-dependent dispatchers are admitted
as long as both traversals agree here; nested record values are
canonical; field names are distinct and avoid `bitfield_context`; and
the reorder prefix is a valid permutation no longer than the encoding -
decoding the encoding succeeds and returns a record equal to the
original instance under the schema's structural per-field equality
(the decoded instance is field-for-field identical; only its
`bitfield_context`, which equality ignores, is reset). -/
theorem c1_roundtrip_amended :
    ∀ (env : Env) (cls : String) (attrs : AttrList) (c0 : Value)
      (sch : Schema) (lens : List Nat),
      lookupSchema env cls = some sch →
      attrs.map Prod.fst = sch.fields.map Prod.fst →
      (sch.fields.map Prod.fst).Nodup →
      "bitfield_context" ∉ sch.fields.map Prod.fst →
      lens.length = sch.fields.length →
      (∀ i (h : i < sch.fields.length) (h2 : i < attrs.length)
          (h3 : i < lens.length),
        Good env (PView attrs i) ((lens.drop (i + 1)).sum)
          (sch.fields.get ⟨i, h⟩).2 (attrs.get ⟨i, h2⟩).2
          (lens.get ⟨i, h3⟩)) →
      PrefixPerm sch.reorder →
      ∀ (f : Nat) (ctx ctx2 : Value) (bits : List Bool) (x2 : Value),
        to_bits env f (.vRecord cls attrs c0) ctx = .ok (bits, x2) →
        sch.reorder.length ≤ bits.length →
        from_bits env f sch bits ctx2 = .ok (.vRecord cls attrs .vNone) ∧
        ∃ g, valueEqF env g (.vRecord cls attrs .vNone)
          (.vRecord cls attrs c0) = true := by
  intro env cls attrs c0 sch lens hsch hmapfst hnodup hbc hlenslen hAll
    hperm f ctx ctx2 bits x2 henc hrlen
  have hname : sch.name = cls := lookupSchema_name hsch
  rw [to_bits, to_bits_g, hsch] at henc
  dsimp only at henc
  cases hfb : encode_fields cls
      (fun F x pv => bftype_to_bits env f F x pv ctx)
      sch.fields attrs (attrs ++ [("bitfield_context", ctx)]) with
  | error e => rw [hfb] at henc; exact absurd henc (by simp)
  | ok fieldbits =>
      rw [hfb] at henc
      dsimp only at henc
      cases henc
      have hfblen : fieldbits.length =
          (Bits.unreorder fieldbits sch.reorder).length :=
        (unreorder_length fieldbits sch.reorder).symm
      have hlkA := lookup_aligned attrs (sch.fields.map Prod.fst)
        hmapfst hnodup
      have hlk2 : ∀ i (hi : i < sch.fields.length)
          (hi2 : i < attrs.length),
          List.lookup (sch.fields.get ⟨i, hi⟩).1 attrs =
            some (attrs.get ⟨i, hi2⟩).2 := by
        intro i hi hi2
        have := hlkA i (by simpa using hi) hi2
        simpa [List.get_map] using this
      have hreo := reorder_unreorder fieldbits sch.reorder hperm
        (by omega)
      have ihshift : ∀ i (hi : i < sch.fields.length)
          (hi2 : i < attrs.length) (hi3 : i < lens.length),
          RT env (PView attrs (0 + i)) ((lens.drop (i + 1)).sum)
            (sch.fields.get ⟨i, hi⟩).2 (attrs.get ⟨i, hi2⟩).2
            (lens.get ⟨i, hi3⟩) := by
        intro i hi hi2 hi3
        rw [Nat.zero_add]
        exact good_rt env (hAll i hi hi2 hi3)
      obtain ⟨hfbl, hdecf⟩ := fields_rt env cls attrs sch.fields attrs
        lens 0 (by simp) hmapfst (by omega) hlk2 ihshift f ctx ctx
        fieldbits hfb
      have hinit2 : bitfield_init sch
          (("bitfield_context", ctx2) :: attrs) =
          .ok (.vRecord cls attrs .vNone) := by
        rw [bitfield_init]
        have hgo := init_go_exact sch.fields attrs
          (("bitfield_context", ctx2) :: attrs) hmapfst
          (by
            intro i hi hi2
            have hne : (sch.fields.get ⟨i, hi⟩).1 ≠
                "bitfield_context" := by
              intro hEq
              apply hbc
              rw [← hEq]
              exact List.mem_map_of_mem Prod.fst (List.get_mem _ _ _)
            rw [lookup_cons_ne hne]
            exact hlk2 i hi hi2)
        rw [hgo, hname]
      have hstream : BitStream.reorder
          ⟨Bits.unreorder fieldbits sch.reorder, 0⟩ sch.reorder =
          ⟨fieldbits, 0⟩ := by
        rw [BitStream.reorder]
        dsimp only
        rw [hreo]
      constructor
      · have hd := hdecf fieldbits 0 ctx2 (by simp) (by omega)
        rw [from_bits, from_bits_g, from_bitstream_g, hname, hstream]
        simp only [List.take_zero, List.cons_append, List.nil_append] at hd
        rw [hd]
        dsimp only
        rw [hinit2]
        dsimp only
        rw [if_neg (by simp [BitStream.remaining, hfbl])]
      · have hgood : Good env (fun _ => True) 0
            (.bfBitfield cls (Bits.unreorder fieldbits sch.reorder).length
              Option.none)
            (.vRecord cls attrs .vNone)
            (Bits.unreorder fieldbits sch.reorder).length :=
          Good.record hsch hmapfst hnodup hbc hlenslen hAll hperm hrlen
        obtain ⟨f0, hf0⟩ := good_selfeq env hgood
        exact ⟨f0, by
          rw [valueEqF_ctx env f0 cls attrs cls attrs .vNone c0
            .vNone .vNone]
          exact hf0 f0 le_rfl⟩

theorem selfEqAt_vInt (env : Env) (i : Int) : SelfEqAt env (.vInt i) :=
  ⟨1, fun g hg => by
    match g, hg with
    | g + 1, _ => simp [valueEqF]⟩

/-- A dynamic dispatcher in the style of the spec's fourth scenario:
it inspects the previously decoded discriminator field `kind` on the
view it is given and selects a 16-bit or an 8-bit integer descriptor
accordingly. -/
def fnKind : AttrList → Disguised := fun proxy =>
  match List.lookup "kind" proxy with
  | some (.vInt 1) => .dTy (bf_int 16 none)
  | _ => .dTy (bf_int 8 none)

/-- The schema `{kind: int(8), body: dyn(fnKind)}`. -/
def schemaKB : Schema :=
  ⟨"KB", [("kind", bf_int 8 none), ("body", .bfDynSelf fnKind none)], [], []⟩

/-- An environment holding only `schemaKB`. -/
def envKB : Env := [schemaKB]

/-- The instance `{kind: 1, body: 0x1234}`. -/
def attrsKB : AttrList := [("kind", .vInt 1), ("body", .vInt 4660)]

/-- The encoding of `{kind: 1, body: 0x1234}`: the byte `0x01` followed
by the 16-bit big-endian `0x1234`. -/
def bitsKB : List Bool :=
  [false, false, false, false, false, false, false, true,
   false, false, false, true, false, false, true, false,
   false, false, true, true, false, true, false, false]

/-- C1 witness: the amended round trip applied to the schema
`{kind: int(8), body: dyn(fnKind)}` — whose dispatcher genuinely
depends on its input, branching on the decoded `kind` field — and the
instance `{kind: 1, body: 0x1234}`: the coherence hypotheses hold
concretely (the dispatcher resolves to the 16-bit descriptor on every
view it is consulted with for this instance) and the encoding decodes
back to the instance. -/
theorem c1_roundtrip_amended_witness :
    from_bits envKB 4 schemaKB bitsKB .vNone =
      .ok (.vRecord "KB" attrsKB .vNone) ∧
    ∃ g, valueEqF envKB g (.vRecord "KB" attrsKB .vNone)
      (.vRecord "KB" attrsKB .vNone) = true := by
  have hAll : ∀ i (h : i < schemaKB.fields.length)
      (h2 : i < attrsKB.length) (h3 : i < ([8, 16] : List Nat).length),
      Good envKB (PView attrsKB i) ((([8, 16] : List Nat).drop (i + 1)).sum)
        (schemaKB.fields.get ⟨i, h⟩).2 (attrsKB.get ⟨i, h2⟩).2
        (([8, 16] : List Nat).get ⟨i, h3⟩) := by
    intro i h h2 h3
    match i with
    | 0 =>
        exact Good.map (by rfl) (by rfl) (selfEqAt_vInt envKB 1)
          (Good.bits (by rfl))
    | 1 =>
        have hinner : Good envKB (PView attrsKB 1)
            ((([8, 16] : List Nat).drop 2).sum) (bf_int 16 none)
            (.vInt 4660) 16 :=
          Good.map (by rfl) (by rfl) (selfEqAt_vInt envKB 4660)
            (Good.bits (by rfl))
        refine Good.dyn ?_ hinner
        intro proxy hp
        rcases hp with ⟨c, rfl⟩ | ⟨c, rfl⟩
        · rfl
        · rfl
    | i + 2 =>
        have : schemaKB.fields.length = 2 := rfl
        omega
  exact c1_roundtrip_amended envKB "KB" attrsKB .vNone schemaKB [8, 16]
    (by rfl) (by rfl) (by decide) (by decide) (by rfl) hAll (by decide)
    4 .vNone .vNone bitsKB (.vRecord "KB" attrsKB .vNone)
    (by rfl) (by decide)

end Benlink
